import Mathlib

/-!
# Background-processing engine of rodeo-v2: job queue, scheduler, cache

Shallow embedding of `src/lib/queue.go`, `src/lib/scheduler.go`,
`src/lib/cache.go`, the cleanup job of `src/lib/jobs.go` and the token
functions of `src/lib/crypto.go` (with the table definitions of
`src/lib/server.go` and the helpers of `src/lib/util.go` they rely on).

Modelling conventions.

* A table is the list of its rows in the order a sequential scan visits them.
  SQL fixes that order nowhere, so every statement about a table is made for
  an arbitrary list; the primary key (`id text NOT NULL PRIMARY KEY`) is the
  hypothesis `IdsUnique`.
* Times (`time.Time`, `timestamptz`) and durations are integers counting the
  same tick, times from Go's zero time; the queue only compares and adds
  them. The clock of the store (`now()`) is the clock of the process.
* `time.Now()`, `NewID()`, `args.Value()` and the place the storage engine
  gives a new job row are inputs of the operations that consult them; the
  clock reads made for one statement agree. New schedule and cache rows go to the end of
  their table, whose order no statement depends on.
* A storage fault makes `Check` raise and aborts the process; the storage is
  taken to be available. What is modelled of a failing statement is what
  depends on the values given to it: for the insert of a job, the error of
  `J.Value`, a priority the column `priority int` cannot hold and the
  violation of the primary key.
* A `String` stands for a Go string that a `text` column holds.
-/

namespace Rodeo

/-! ## Data model -/

/-- The type `J` of `util.go` (`map[string]interface{}`), as the list of its
  bindings; the queue never inspects it. -/
abbrev J := List (String × String)

/-- The constant `JobPriorityHigh` of `queue.go`. -/
def JobPriorityHigh : Int := 1
/-- The constant `JobPriorityMedium` of `queue.go`. -/
def JobPriorityMedium : Int := 2
/-- The constant `JobPriorityLow` of `queue.go`. -/
def JobPriorityLow : Int := 3

/-- A row of `app_jobs` (`type Job struct` of `queue.go`). The column
  `created` holds the earliest time the job may run (the spec's `run_at`). -/
structure Job where
  ID : String
  Name : String
  Args : J
  Priority : Int
  Created : Int
  deriving DecidableEq, Repr

/-- The primary key of `app_jobs`: no two rows share an id. -/
def IdsUnique (rows : List Job) : Prop := (rows.map Job.ID).Nodup

instance (rows : List Job) : Decidable (IdsUnique rows) := by
  unfold IdsUnique; infer_instance

/-! ## The claim statement of the worker loop -/

/-- The `where created < $1` of the claim query. -/
def isDue (now : Int) (j : Job) : Bool := decide (j.Created < now)

/-- The `order by priority, created asc` of the claim query. -/
def jobLe (a b : Job) : Prop :=
  a.Priority < b.Priority ∨ (a.Priority = b.Priority ∧ a.Created ≤ b.Created)

instance : DecidableRel jobLe := fun a b => by
  unfold jobLe; infer_instance

/-- The rows the subquery
  `select id from app_jobs where created < $1 order by priority, created asc limit 5`
  picks, in its order. Rows that compare equal keep their table order. -/
def selectDue (rows : List Job) (now : Int) : List Job :=
  ((rows.filter (isDue now)).insertionSort jobLe).take 5

/-- The ids the subquery returns. -/
def selectIds (rows : List Job) (now : Int) : List String :=
  (selectDue rows now).map Job.ID

/-- The statement
  `delete from app_jobs where id in (select id ... limit 5) returning *`
  run at time `now`: the first component is the rows it returns, the second
  the table it leaves. The `order by` stands in the subquery, whose result
  is used only through `id in (...)`; the delete itself has no ordering, so
  the rows come back as the delete meets them in the table. -/
def claim (rows : List Job) (now : Int) : List Job × List Job :=
  (rows.filter (fun j => decide (j.ID ∈ selectIds rows now)),
   rows.filter (fun j => !decide (j.ID ∈ selectIds rows now)))

/-! ## Enqueue and Delay -/

/-- What a call may do: return to its caller, raise a fault (Go `panic`)
  that unwinds to the caller, or end the process (`os.Exit`, as `ExecCmd`
  does). Each carries the state reached. -/
inductive Outcome (σ : Type) where
  | returned (s : σ)
  | panicked (err : String) (s : σ)
  | exited (s : σ)
  deriving DecidableEq, Repr

/-- The state an outcome carries. -/
def Outcome.state {σ : Type} : Outcome σ → σ
  | .returned s => s
  | .panicked _ s => s
  | .exited s => s

/-- A table with `row` put at scan position `slot` (at the end when `slot`
  is past the end). -/
def insertRow (slot : Nat) (row : Job) (rows : List Job) : List Job :=
  rows.take slot ++ row :: rows.drop slot

/-- Whether the column `priority int` of `app_jobs` (`server.go`), a
  four-byte integer, can hold `p`; `Enqueue` and `Delay` take the priority as
  an `int64`. -/
def fitsInt4 (p : Int) : Bool := decide (-2147483648 ≤ p ∧ p ≤ 2147483647)

/-- The statement `insert into app_jobs (id, name, args, priority, created)
  values ($1, $2, $3, $4, $5)` through `Database.Execute`. `argsValue` is
  what binding `$3` gets from `args.Value()` (`util.go`: `json.Marshal(j)`),
  the bytes or the error. `Check` raises, and no row is stored, when
  `Value` fails, when the priority does not fit the column `priority int`,
  and when the id is already in the table (primary key). -/
def insertJob (rows : List Job) (slot : Nat) (row : Job)
    (argsValue : Except String (List Nat)) : Outcome (List Job) :=
  match argsValue with
  | .error err => .panicked err rows
  | .ok _ =>
    if !fitsInt4 row.Priority then
      .panicked "pq: value is out of range for type integer" rows
    else if row.ID ∈ rows.map Job.ID then
      .panicked "pq: duplicate key value violates unique constraint" rows
    else
      .returned (insertRow slot row rows)

/-- The priority both `Enqueue` and `Delay` compute from their variadic
  `priorityArgs`: `JobPriorityLow`, or the first argument when there is one. -/
def priorityOf (priorityArgs : List Int) : Int :=
  match priorityArgs with
  | [] => JobPriorityLow
  | p :: _ => p

/-- What `json.Marshal` gives for the empty map `J{}`: the two bytes of
  `{}`. -/
def emptyArgsValue : Except String (List Nat) := .ok [123, 125]

/-- The method `JobQueue.Enqueue`. `newID` is the value of its `NewID()`
  call, `now` of its `time.Now()` call, `slot` where the storage puts the
  row, `argsValue` what `args.Value()` returns when the insert binds
  `args`. -/
def Enqueue (rows : List Job) (newID : String) (now : Int) (slot : Nat)
    (name : String) (args : J) (argsValue : Except String (List Nat))
    (priorityArgs : List Int) : Outcome (List Job) :=
  insertJob rows slot ⟨newID, name, args, priorityOf priorityArgs, now⟩ argsValue

/-- The method `JobQueue.Delay`, with the inputs of `Enqueue` and the
  `delay`. -/
def Delay (rows : List Job) (newID : String) (now : Int) (slot : Nat)
    (name : String) (args : J) (argsValue : Except String (List Nat)) (delay : Int)
    (priorityArgs : List Int) : Outcome (List Job) :=
  insertJob rows slot ⟨newID, name, args, priorityOf priorityArgs, now + delay⟩ argsValue

/-! ## The job registry and RunJob -/

/-- A row of `app_schedules` (`type Schedule struct` of `scheduler.go`). -/
structure Schedule where
  ID : String
  LastRan : Int
  NextRun : Int
  deriving DecidableEq, Repr

/-- A row of `app_cache` (`type cacheEntry struct` of `cache.go`); `Value`
  is the list of its bytes. -/
structure cacheEntry where
  ID : String
  Value : List Nat
  Expires : Int
  deriving DecidableEq, Repr

/-- The three tables of `server.go` that the engine owns. -/
structure Database where
  jobs : List Job
  schedules : List Schedule
  cache : List cacheEntry
  deriving DecidableEq, Repr

/-- One call of `Log`: level, message and the fields given. A field holds a
  string or a `J`. -/
structure LogLine where
  level : String
  message : String
  fields : List (String × (String ⊕ J))
  deriving DecidableEq, Repr

/-- Everything a job can touch: the shared store and the logging sink. -/
structure World where
  db : Database
  log : List LogLine
  deriving DecidableEq, Repr

/-- The function `Log` of `util.go`, as its effect on the sink. -/
def Log (w : World) (level message : String) (fields : List (String × (String ⊕ J))) :
    World :=
  { w with log := w.log ++ [⟨level, message, fields⟩] }

/-- A job handler `func(*Ctx, J)`: from the state it is started in and its
  arguments to what it does. -/
abbrev Handler := World → J → Outcome World

/-- The map `jobs` of `queue.go`. A name is absent (`none`), or bound to a
  function value, which in Go may be `nil` (`some none`). -/
abbrev JobRegistry := String → Option (Option Handler)

/-- The call `handler(c, args)`: calling a nil function value raises. -/
def callHandler (handler : Option Handler) (w : World) (args : J) : Outcome World :=
  match handler with
  | none => .panicked "runtime error: invalid memory address or nil pointer dereference" w
  | some h => h w args

/-- What `RunJob` reports: whether it reached the call of a handler, and how
  it ended. -/
structure RunJobResult where
  invoked : Bool
  outcome : Outcome World

/-- The method `JobQueue.RunJob`. The context `c` it builds before the call
  is the handler's access to the state `w`; building it changes no table.
  The deferred function recovers a fault of the handler and logs it (name,
  args and error; the `stack` field, a rendering of the call stack, is not
  kept). -/
def RunJob (jobs : JobRegistry) (w : World) (name : String) (args : J) : RunJobResult :=
  match jobs name with
  | none =>
    ⟨false, .returned (Log w "error" "RunJob: No job for given name" [("name", .inl name)])⟩
  | some handler =>
    match callHandler handler w args with
    | .returned w1 => ⟨true, .returned w1⟩
    | .panicked err w1 =>
      ⟨true, .returned (Log w1 "error" "JobQueue: RunJob: panic"
        [("name", .inl name), ("args", .inr args), ("error", .inl err)])⟩
    | .exited w1 => ⟨true, .exited w1⟩

/-! ## One iteration of the worker loop -/

/-- The loop `for _, job := range jobs { q.RunJob(job.Name, job.Args) }`:
  the `RunJob` calls it makes, in order, and how it ends. A call that does
  not return ends the loop there. -/
def runJobs (jobs : JobRegistry) : List Job → World → List (String × J) × Outcome World
  | [], w => ([], .returned w)
  | job :: rest, w =>
    match (RunJob jobs w job.Name job.Args).outcome with
    | .returned w1 =>
      let r := runJobs jobs rest w1
      ((job.Name, job.Args) :: r.1, r.2)
    | .panicked err w1 => ([(job.Name, job.Args)], .panicked err w1)
    | .exited w1 => ([(job.Name, job.Args)], .exited w1)

/-- What one pass through the body of `JobQueue.start` does. -/
structure Iteration where
  -- the rows the claim statement returned
  batch : List Job
  -- the state in which the first handler starts
  atStart : World
  -- the RunJob calls made, in order
  dispatched : List (String × J)
  -- whether the pass ended with time.Sleep(time.Second)
  slept : Bool
  -- how the pass ended
  outcome : Outcome World

/-- The body of the loop of `JobQueue.start`, run at time `now`. -/
def startIteration (jobs : JobRegistry) (w : World) (now : Int) : Iteration :=
  let c := claim w.db.jobs now
  let w0 : World := { w with db := { w.db with jobs := c.2 } }
  let r := runJobs jobs c.1 w0
  { batch := c.1, atStart := w0, dispatched := r.1,
    slept := c.1.length == 0, outcome := r.2 }

/-! ## Example states -/

/-- A Low job stored ahead of a High job, both due at time 10. -/
def exLowThenHigh : List Job :=
  [⟨"01", "report", [], JobPriorityLow, 1⟩, ⟨"02", "alert", [], JobPriorityHigh, 2⟩]

/-- The job that `Delay` called at time 0 with delay 10 inserts. -/
def exOld : Job := ⟨"a", "job", [], JobPriorityLow, 10⟩

/-- A job that `Enqueue` called at time 10 inserts under the id given. -/
def exNew (id : String) : Job := ⟨id, "job", [], JobPriorityLow, 10⟩

/-- Eleven Low jobs with `created = 0`. -/
def exEleven : List Job :=
  ["a", "b", "c", "d", "e", "f", "g", "h", "i", "j", "k"].map
    (fun id => ⟨id, "job", [], JobPriorityLow, 0⟩)

/-- One job whose `created` is 10. -/
def exAtTen : List Job := [⟨"a", "job", [], JobPriorityLow, 10⟩]

/-- A handler that writes a log line and then raises. -/
def exBoom : Handler := fun w _ => .panicked "boom" (Log w "info" "started" [])

/-- A handler that writes a log line and returns. -/
def exFine : Handler := fun w _ => .returned (Log w "info" "done" [])

/-- A registry with the two handlers above and a name bound to a nil
  function. -/
def exJobs : JobRegistry := fun name =>
  if name = "boom" then some (some exBoom)
  else if name = "fine" then some (some exFine)
  else if name = "nil" then some none
  else none

/-- A state whose queue holds, all due at time 10, a job with a raising
  handler, a job with an unregistered name and a job with a handler that
  returns. -/
def exWorld : World :=
  { db := { jobs := [⟨"1", "boom", [], JobPriorityHigh, 1⟩,
                     ⟨"2", "missing", [], JobPriorityHigh, 2⟩,
                     ⟨"3", "fine", [("k", "v")], JobPriorityHigh, 3⟩],
            schedules := [], cache := [] },
    log := [] }

/-- A handler that ends the process, as the handlers of "db-setup" and
  "db-reset" (`jobs_db.go`) do through `ExecCmd` when the command cannot be
  run: `ExecCmd` logs and calls `os.Exit(1)`. -/
def exExit : Handler := fun w _ =>
  .exited (Log w "error" "ExecCmd: Error running commmand" [])

/-- A registry with a handler that ends the process and one that returns. -/
def exJobsExit : JobRegistry := fun name =>
  if name = "db-setup" then some (some exExit)
  else if name = "fine" then some (some exFine)
  else none

/-- A state whose queue holds, both due at time 10, a job whose handler ends
  the process and, after it, a job whose handler returns. -/
def exWorldExit : World :=
  { db := { jobs := [⟨"1", "db-setup", [], JobPriorityHigh, 1⟩,
                     ⟨"2", "fine", [], JobPriorityHigh, 2⟩],
            schedules := [], cache := [] },
    log := [] }

/-! ## Registration of jobs and schedules -/

/-- The function `RegisterJob` of `queue.go`: it raises when `jobs[name]`
  is not nil, else binds `name` to `handler` (and returns `name`). -/
def RegisterJob (jobs : JobRegistry) (name : String) (handler : Option Handler) :
    Outcome JobRegistry :=
  match jobs name with
  | some (some _) => .panicked ("RegisterJob: Job already exists: " ++ name) jobs
  | _ => .returned (fun n => if n = name then some handler else jobs n)

/-- The map `globalSchedules` of `scheduler.go`, as the list of its entries
  in the order `range` visits them; a Go map holds a key once
  (`KeysUnique`). -/
abbrev ScheduleRegistry := List (String × Int)

/-- A Go map holds each key once. -/
def KeysUnique (globalSchedules : ScheduleRegistry) : Prop :=
  (globalSchedules.map Prod.fst).Nodup

instance (globalSchedules : ScheduleRegistry) : Decidable (KeysUnique globalSchedules) := by
  unfold KeysUnique; infer_instance

/-- The index expression `globalSchedules[name]`: the interval of the
  entry, and the zero value 0 when the map has no entry for `name`. -/
def intervalOf (globalSchedules : ScheduleRegistry) (name : String) : Int :=
  (globalSchedules.lookup name).getD 0

/-- The assignment `globalSchedules[jobName] = runEvery`. -/
def mapAssign (globalSchedules : ScheduleRegistry) (jobName : String) (runEvery : Int) :
    ScheduleRegistry :=
  if jobName ∈ globalSchedules.map Prod.fst then
    globalSchedules.map (fun e => if e.1 = jobName then (jobName, runEvery) else e)
  else
    globalSchedules ++ [(jobName, runEvery)]

/-- The function `RegisterSchedule` of `scheduler.go`: it raises when
  `globalSchedules[jobName]` is not 0, else assigns (and returns
  `jobName`). -/
def RegisterSchedule (globalSchedules : ScheduleRegistry) (jobName : String)
    (runEvery : Int) : Outcome ScheduleRegistry :=
  if intervalOf globalSchedules jobName ≠ 0 then
    .panicked ("RegisterSchedule: " ++ jobName ++ " already registered") globalSchedules
  else
    .returned (mapAssign globalSchedules jobName runEvery)

/-! ## The scheduler -/

/-- The method `Time.Round` of Go's `time` package: `t` rounded to the
  nearest multiple of `d` since the zero time, halfway values rounded up;
  for `d <= 0` it returns `t` unchanged. -/
def Round (t d : Int) : Int :=
  if d ≤ 0 then t
  else if t % d + t % d < d then t - t % d
  else t + (d - t % d)

/-- The primary key of `app_schedules`. -/
def SchedIdsUnique (rows : List Schedule) : Prop := (rows.map Schedule.ID).Nodup

instance (rows : List Schedule) : Decidable (SchedIdsUnique rows) := by
  unfold SchedIdsUnique; infer_instance

/-- The first loop of `Scheduler.start` over the rows read at startup
  (`snapshot`): a row whose `globalSchedules[v.ID]` is 0 is deleted from the
  table by `delete from app_schedules where id = $1`, the id of any other
  goes into `schedulesExisting`. The result is the table left and the keys
  of `schedulesExisting`. -/
def deleteOldSchedules (globalSchedules : ScheduleRegistry) :
    List Schedule → List Schedule → List Schedule × List String
  | [], table => (table, [])
  | v :: vs, table =>
    if intervalOf globalSchedules v.ID = 0 then
      deleteOldSchedules globalSchedules vs (table.filter (fun r => r.ID ≠ v.ID))
    else
      ((deleteOldSchedules globalSchedules vs table).1,
        v.ID :: (deleteOldSchedules globalSchedules vs table).2)

/-- The statement `insert into app_schedules (id, last_ran, next_run)
  values ($1, $2, $3)` through `Database.Execute`. -/
def insertSchedule (table : List Schedule) (row : Schedule) : Outcome (List Schedule) :=
  if row.ID ∈ table.map Schedule.ID then
    .panicked "pq: duplicate key value violates unique constraint" table
  else
    .returned (table ++ [row])

/-- The row that startup inserts for the entry `(id, interval)` at time
  `now`: `id, time.Now(), time.Now().Add(interval).Round(interval)`. -/
def newSchedule (id : String) (interval : Int) (now : Int) : Schedule :=
  ⟨id, now, Round (now + interval) interval⟩

/-- The second loop of `Scheduler.start`, over the entries of
  `globalSchedules`: an entry whose id is not in `schedulesExisting` gets a
  row. -/
def createNewSchedules (existing : List String) (now : Int) :
    List (String × Int) → List Schedule → Outcome (List Schedule)
  | [], table => .returned table
  | e :: rest, table =>
    if e.1 ∈ existing then createNewSchedules existing now rest table
    else
      match insertSchedule table (newSchedule e.1 e.2 now) with
      | .returned table1 => createNewSchedules existing now rest table1
      | .panicked err table1 => .panicked err table1
      | .exited table1 => .exited table1

/-- The startup part of `Scheduler.start`, before its main loop: read all
  rows, delete the old ones, create the new ones. -/
def reconcile (globalSchedules : ScheduleRegistry) (table : List Schedule) (now : Int) :
    Outcome (List Schedule) :=
  createNewSchedules (deleteOldSchedules globalSchedules table table).2 now globalSchedules
    (deleteOldSchedules globalSchedules table table).1

/-- The query `select * from app_schedules where next_run < $1` of the main
  loop. -/
def selectDueSchedules (table : List Schedule) (now : Int) : List Schedule :=
  table.filter (fun v => decide (v.NextRun < now))

/-- The statement `update app_schedules set last_ran = $3, next_run = $4
  where id = $1 and next_run < $2 returning *`: the rows it returns and the
  table it leaves. -/
def updateSchedule (table : List Schedule) (id : String) (now lastRan nextRun : Int) :
    List Schedule × List Schedule :=
  ((table.filter (fun r => decide (r.ID = id ∧ r.NextRun < now))).map
      (fun r => ⟨r.ID, lastRan, nextRun⟩),
   table.map (fun r => if r.ID = id ∧ r.NextRun < now then ⟨r.ID, lastRan, nextRun⟩ else r))

/-- The body of the loop of `Scheduler.start` over the due schedules, for
  the schedule `id`: the conditional update at time `now`, and when it
  returns a row the call `s.queue.Enqueue(v.ID, J{}, JobPriorityHigh)`, whose
  inputs are `newID`, `enqueueNow` and `slot`. -/
def fireSchedule (globalSchedules : ScheduleRegistry) (db : Database) (id : String)
    (now : Int) (newID : String) (enqueueNow : Int) (slot : Nat) : Outcome Database :=
  let interval := intervalOf globalSchedules id
  let u := updateSchedule db.schedules id now now (Round (now + interval) interval)
  if u.1.length > 0 then
    match Enqueue db.jobs newID enqueueNow slot id [] emptyArgsValue [JobPriorityHigh] with
    | .returned jobs => .returned { db with schedules := u.2, jobs := jobs }
    | .panicked err _ => .panicked err { db with schedules := u.2 }
    | .exited _ => .exited { db with schedules := u.2 }
  else
    .returned { db with schedules := u.2 }

/-! ## The cache -/

/-- What `Cache.Get` leaves: its result, the value in `result` (the `out`
  of the spec), and the table. -/
structure GetResult (ρ : Type) where
  found : Bool
  result : ρ
  cache : List cacheEntry
  deriving DecidableEq, Repr

/-- The method `Cache.Get` at time `now`. `unmarshal data result` stands
  for `json.Unmarshal(data, result)`: the value it leaves in `result`, or
  its error, on which `Check` raises (what a failed decoding leaves in
  `result` is not kept). -/
def Cache.Get {ρ : Type} (unmarshal : List Nat → ρ → Except String ρ)
    (cache : List cacheEntry) (now : Int) (key : String) (result : ρ) :
    Outcome (GetResult ρ) :=
  match cache.find? (fun e => decide (e.ID = key ∧ e.Expires > now)) with
  | none => .returned ⟨false, result, cache⟩
  | some entry =>
    match unmarshal entry.Value result with
    | .error err => .panicked err ⟨false, result, cache⟩
    | .ok r => .returned ⟨true, r, cache⟩

/-- The statement `insert into app_cache (id, value, expires) values
  ($1, $2, $3) on conflict (id) do update set value = excluded.value,
  expires = excluded.expires`. -/
def upsertCache (cache : List cacheEntry) (row : cacheEntry) : List cacheEntry :=
  if row.ID ∈ cache.map cacheEntry.ID then
    cache.map (fun e => if e.ID = row.ID then ⟨e.ID, row.Value, row.Expires⟩ else e)
  else
    cache ++ [row]

/-- The method `Cache.Set` at time `now`. `marshal value` stands for
  `json.Marshal(value)`. -/
def Cache.Set {α : Type} (marshal : α → Except String (List Nat))
    (cache : List cacheEntry) (now : Int) (key : String) (value : α) (ttl : Int) :
    Outcome (List cacheEntry) :=
  match marshal value with
  | .error err => .panicked err cache
  | .ok bytes => .returned (upsertCache cache ⟨key, bytes, now + ttl⟩)

/-- The registry after `RegisterSchedule("cleanup", 3600)`, as `jobs.go`
  registers it with the tick a second. -/
def exSchedules : ScheduleRegistry := [("cleanup", 3600)]

/-- A store whose only schedule row is due from time 7200 on. -/
def exDb : Database :=
  { jobs := [], schedules := [⟨"cleanup", 3600, 7200⟩], cache := [] }

/-! ## The cache: Delete, Try and the cleanup job -/

/-- The primary key of `app_cache`. -/
def CacheIdsUnique (cache : List cacheEntry) : Prop := (cache.map cacheEntry.ID).Nodup

instance (cache : List cacheEntry) : Decidable (CacheIdsUnique cache) := by
  unfold CacheIdsUnique; infer_instance

/-- The method `Cache.Delete`: `delete from app_cache where id = $1`. -/
def Cache.Delete (cache : List cacheEntry) (key : String) : List cacheEntry :=
  cache.filter (fun e => !decide (e.ID = key))

/-- What `Cache.Try` leaves: how often it called `fn`, the value in
  `result`, and the table. -/
structure TryResult (ρ : Type) where
  calls : Nat
  result : ρ
  cache : List cacheEntry
  deriving DecidableEq, Repr

/-- The method `Cache.Try`. Its `Get` runs at time `getNow`, its `Set` at
  time `setNow`. A call of the fallback `fn` is given the table and yields
  the value it returns, or the fault it raises, and the table it leaves. -/
def Cache.Try {α ρ : Type} (marshal : α → Except String (List Nat))
    (unmarshal : List Nat → ρ → Except String ρ) (cache : List cacheEntry)
    (getNow setNow : Int) (key : String) (result : ρ) (ttl : Int)
    (fn : List cacheEntry → Except String α × List cacheEntry) : Outcome (TryResult ρ) :=
  match Cache.Get unmarshal cache getNow key result with
  | .panicked err g => .panicked err ⟨0, g.result, g.cache⟩
  | .exited g => .exited ⟨0, g.result, g.cache⟩
  | .returned g =>
    if g.found then .returned ⟨0, g.result, g.cache⟩
    else
      match fn g.cache with
      | (.error err, cache1) => .panicked err ⟨1, g.result, cache1⟩
      | (.ok value, cache1) =>
        match Cache.Set marshal cache1 setNow key value ttl with
        | .panicked err cache2 => .panicked err ⟨1, g.result, cache2⟩
        | .exited cache2 => .exited ⟨1, g.result, cache2⟩
        | .returned cache2 =>
          match marshal value with
          | .error err => .panicked err ⟨1, g.result, cache2⟩
          | .ok bytes =>
            match unmarshal bytes g.result with
            | .error err => .panicked err ⟨1, g.result, cache2⟩
            | .ok r => .returned ⟨1, r, cache2⟩

/-- The statement `delete from app_cache where expires < now()` of the
  cleanup job, at time `now`. -/
def cleanupCache (cache : List cacheEntry) (now : Int) : List cacheEntry :=
  cache.filter (fun e => !decide (e.Expires < now))

/-- The handler that `jobs.go` registers under the name "cleanup", run at
  time `now`. -/
def cleanupJob (now : Int) : Handler := fun w _ =>
  .returned { w with db := { w.db with cache := cleanupCache w.db.cache now } }

/-! ## NewID -/

/-- The constant `idEncoding` of `util.go`. -/
def idEncoding : List Char :=
  "0123456789ABCDEFGHJKMNPQRSTVWXYZabcdefghkmnpqrstvwxyz".toList

/-- The index expression `idEncoding[i]`, used by `NewID` with `i < 53`
  only. -/
def encodingAt (i : Nat) : Char := idEncoding.getD i '0'

/-- The second loop of `NewID`, run `n` times from the millisecond count
  `now`: each turn writes `idEncoding[now % 53]` in front of what the
  earlier turns wrote and goes on with `(now - now % 53) / 53`. For `n = 10`
  the result is `id[0..9]`. -/
def timestampChars : Nat → Nat → List Char
  | 0, _ => []
  | n + 1, now => timestampChars n ((now - now % 53) / 53) ++ [encodingAt (now % 53)]

/-- The function `NewID` of `util.go`: `now` is
  `time.Now().UnixNano() / int64(time.Millisecond)`, `rnd i` the value of
  the i-th `rand.Intn(enclen)`. -/
def NewID (now : Nat) (rnd : Fin 10 → Fin 53) : String :=
  String.mk (timestampChars 10 now ++ (List.finRange 10).map (fun i => encodingAt (rnd i)))

/-! ## RunCliJob -/

/-- The function `Env` of `util.go`; `getenv` is `os.Getenv`. -/
def Env (getenv : String → String) (name alt : String) : String :=
  if getenv name ≠ "" then getenv name else alt

/-- The function `IsProduction` of `util.go`. -/
def IsProduction (getenv : String → String) : Bool :=
  decide (Env getenv "ENV" "development" ≠ "development")

/-- The call `strings.SplitN(s, "=", 2)`: `s` alone when it holds no '=',
  else what stands before its first '=' and what stands after it. -/
def SplitN2 (s : String) : List String :=
  match s.data.span (fun c => c != '=') with
  | (_, []) => [s]
  | (key, _ :: value) => [String.mk key, String.mk value]

/-- The method `J.Set` of `util.go`, the assignment `j[key] = value`. -/
def J.Set (j : J) (key value : String) : J :=
  if key ∈ j.map Prod.fst then j.map (fun e => if e.1 = key then (key, value) else e)
  else j ++ [(key, value)]

/-- The index expression `j[key]`, when the key is bound. -/
def J.lookup (j : J) (key : String) : Option String := List.lookup key j

/-- The job name `RunCliJob` computes from `os.Args` and the environment. -/
def cliJobName (getenv : String → String) (osArgs : List String) : String :=
  let jobName := if osArgs.length > 1 then osArgs.getD 1 "" else ""
  if jobName = "" then
    if Env getenv "ENV" "development" = "dev" then "help" else "start"
  else jobName

/-- The loop `for i := 2; i < len(os.Args); i++` of `RunCliJob` over the
  arguments from `os.Args[2]` on, starting from the map `args`. -/
def cliArgs : List String → J → J
  | [], args => args
  | a :: rest, args =>
    if (SplitN2 a).length = 1 then
      cliArgs rest (J.Set args "arg" ((SplitN2 a).getD 0 ""))
    else
      cliArgs rest (J.Set args ((SplitN2 a).getD 0 "") ((SplitN2 a).getD 1 ""))

/-- The method `JobQueue.RunCliJob`. -/
def RunCliJob (jobs : JobRegistry) (w : World) (getenv : String → String)
    (osArgs : List String) : RunJobResult :=
  RunJob jobs w (cliJobName getenv osArgs) (cliArgs (osArgs.drop 2) [])

/-- The key and value that one pass of the loop of `RunCliJob` hands to
  `args.Set` for the argument `a`. -/
def argBinding (a : String) : String × String :=
  if (SplitN2 a).length = 1 then ("arg", (SplitN2 a).getD 0 "")
  else ((SplitN2 a).getD 0 "", (SplitN2 a).getD 1 "")

/-! ## Successive claims -/

/-- Successive claims of the worker loop at the times given, with nothing
  inserted in between: the batches in the order they are claimed, and the
  table left. -/
def claimAll : List Int → List Job → List (List Job) × List Job
  | [], rows => ([], rows)
  | t :: ts, rows =>
    ((claim rows t).1 :: (claimAll ts (claim rows t).2).1, (claimAll ts (claim rows t).2).2)

/-! ## Tokens -/

/-- The functions of Go's standard packages that the token functions of
  `crypto.go` call. -/
structure TokenLib where
  -- base64.StdEncoding.EncodeToString([]byte(s))
  encodeBase64 : String → String
  -- base64.StdEncoding.DecodeString(b), none for its error
  decodeBase64 : String → Option String
  -- hex.EncodeToString of the HMAC-SHA256 of the message under the secret
  hmacHex : String → String → String
  -- strconv.FormatInt(i, 10)
  formatInt : Int → String
  -- strconv.ParseInt(s, 10, 64), none for its error
  parseInt : String → Option Int

/-- The function `StringToBase64` of `crypto.go`. -/
def StringToBase64 (lib : TokenLib) (s : String) : String := lib.encodeBase64 s

/-- The function `Base64ToString` of `crypto.go`: the empty string when the
  decoding fails. -/
def Base64ToString (lib : TokenLib) (b : String) : String :=
  match lib.decodeBase64 b with
  | some s => s
  | none => ""

/-- The function `SignHMAC256` of `crypto.go`. -/
def SignHMAC256 (lib : TokenLib) (message secret : String) : String :=
  lib.hmacHex message secret

/-- The call `strings.Split(s, sep)` for a separator of one character, on
  the characters of `s`. -/
def splitChars (sep : Char) : List Char → List (List Char)
  | [] => [[]]
  | c :: cs =>
    if c = sep then [] :: splitChars sep cs
    else
      match splitChars sep cs with
      | [] => [[c]]
      | p :: ps => (c :: p) :: ps

/-- The call `strings.Split(s, ".")`. -/
def Split (s : String) : List String := (splitChars '.' s.data).map String.mk

/-- A 64-bit signed result of Go's integer arithmetic. -/
def wrapInt64 (x : Int) : Int := (x + 2 ^ 63) % 2 ^ 64 - 2 ^ 63

/-- The expression
  `time.Now().UTC().Add(time.Duration(mins)*time.Minute).Unix()`, for the
  clock reading `now` in nanoseconds since the Unix epoch. -/
def expiryUnix (now mins : Int) : Int :=
  (now + wrapInt64 (mins * 60000000000)) / 1000000000

/-- The function `CreateToken` of `crypto.go`, called at time `now`
  (nanoseconds since the Unix epoch). -/
def CreateToken (lib : TokenLib) (value secret : String) (mins : Int) (now : Int) : String :=
  let t := lib.formatInt (expiryUnix now mins)
  let message := StringToBase64 lib (value ++ "." ++ t)
  let signature := SignHMAC256 lib message secret
  message ++ "." ++ signature

/-- The function `ValidateToken` of `crypto.go`, called at time `now`
  (nanoseconds since the Unix epoch). An index past the end of `parts`
  raises (`.error`). -/
def ValidateToken (lib : TokenLib) (token secret : String) (now : Int) :
    Except String (String × Bool) :=
  if token = "" then .ok ("no token", false)
  else
    match (Split token).get? 0, (Split token).get? 1 with
    | some message, some signature =>
      if signature ≠ SignHMAC256 lib message secret then .ok ("signature mismatch", false)
      else
        match (Split (Base64ToString lib message)).get? 0,
            (Split (Base64ToString lib message)).get? 1 with
        | some value, some t =>
          match lib.parseInt t with
          | none => .ok ("can't parse time", false)
          | some expiry =>
            if now / 1000000000 ≥ expiry then .ok ("expired", false)
            else .ok (value, true)
        | _, _ => .error "runtime error: index out of range"
    | _, _ => .error "runtime error: index out of range"

/-- Decimal digits of a string, most significant first, for the stand-in
  library below. -/
def exParseDigits : List Char → Nat → Option Nat
  | [], acc => some acc
  | c :: cs, acc =>
    if '0' ≤ c ∧ c ≤ '9' then exParseDigits cs (acc * 10 + (c.toNat - 48)) else none

/-- A stand-in for the library functions: an encoding that writes '/' for
  '.', a fixed signature, and decimal numerals for the numbers used. -/
def exLib : TokenLib where
  encodeBase64 := fun s => String.mk (s.data.map (fun c => if c = '.' then '/' else c))
  decodeBase64 := fun s => some (String.mk (s.data.map (fun c => if c = '/' then '.' else c)))
  hmacHex := fun _ _ => "5e1f"
  formatInt := fun i => if i = 21600 then "21600" else "0"
  parseInt := fun s =>
    if s.data = [] then none else (exParseDigits s.data 0).map (fun n => (n : Int))

/-! ## Lemmas on the claim statement -/

instance : IsTotal Job jobLe := ⟨fun a b => by unfold jobLe; omega⟩

instance : IsTrans Job jobLe := ⟨fun a b c => by unfold jobLe; omega⟩

theorem eq_of_id_eq {rows : List Job} (h : IdsUnique rows) {a b : Job}
    (ha : a ∈ rows) (hb : b ∈ rows) (hid : a.ID = b.ID) : a = b :=
  List.inj_on_of_nodup_map h ha hb hid

theorem nodup_of_idsUnique {rows : List Job} (h : IdsUnique rows) : rows.Nodup :=
  List.Nodup.of_map _ h

theorem idsUnique_of_sublist {l rows : List Job} (hs : l.Sublist rows)
    (h : IdsUnique rows) : IdsUnique l :=
  List.Nodup.sublist (hs.map Job.ID) h

theorem sortedDue_perm (rows : List Job) (now : Int) :
    ((rows.filter (isDue now)).insertionSort jobLe).Perm (rows.filter (isDue now)) :=
  List.perm_insertionSort _ _

theorem sortedDue_sorted (rows : List Job) (now : Int) :
    ((rows.filter (isDue now)).insertionSort jobLe).Sorted jobLe :=
  List.sorted_insertionSort _ _

theorem mem_sortedDue {rows : List Job} {now : Int} {j : Job} :
    j ∈ (rows.filter (isDue now)).insertionSort jobLe ↔ j ∈ rows ∧ isDue now j = true := by
  rw [(sortedDue_perm rows now).mem_iff, List.mem_filter]

theorem mem_selectDue {rows : List Job} {now : Int} {j : Job}
    (h : j ∈ selectDue rows now) : j ∈ rows ∧ isDue now j = true :=
  mem_sortedDue.1 (List.mem_of_mem_take h)

theorem selectDue_nodup {rows : List Job} (h : IdsUnique rows) (now : Int) :
    (selectDue rows now).Nodup := by
  have h1 : (rows.filter (isDue now)).Nodup := (nodup_of_idsUnique h).filter _
  have h2 := (sortedDue_perm rows now).nodup_iff.2 h1
  exact h2.sublist (List.take_sublist _ _)

theorem mem_claim_fst {rows : List Job} (h : IdsUnique rows) {now : Int} {j : Job} :
    j ∈ (claim rows now).1 ↔ j ∈ selectDue rows now := by
  simp only [claim, List.mem_filter, decide_eq_true_eq, selectIds, List.mem_map]
  constructor
  · rintro ⟨hj, k, hk, hid⟩
    have := eq_of_id_eq h (mem_selectDue hk).1 hj hid
    exact this ▸ hk
  · intro hj
    exact ⟨(mem_selectDue hj).1, j, hj, rfl⟩

theorem mem_claim_snd {rows : List Job} {now : Int} {j : Job} :
    j ∈ (claim rows now).2 ↔ j ∈ rows ∧ j.ID ∉ selectIds rows now := by
  simp [claim, List.mem_filter]

theorem claim_fst_sublist (rows : List Job) (now : Int) : (claim rows now).1.Sublist rows :=
  List.filter_sublist _

theorem claim_snd_sublist (rows : List Job) (now : Int) : (claim rows now).2.Sublist rows :=
  List.filter_sublist _

theorem claim_fst_perm {rows : List Job} (h : IdsUnique rows) (now : Int) :
    (claim rows now).1.Perm (selectDue rows now) := by
  rw [List.perm_ext_iff_of_nodup
    ((nodup_of_idsUnique h).sublist (claim_fst_sublist rows now)) (selectDue_nodup h now)]
  intro j
  exact mem_claim_fst h

theorem claim_fst_length {rows : List Job} (h : IdsUnique rows) (now : Int) :
    (claim rows now).1.length = min 5 (rows.filter (isDue now)).length := by
  rw [(claim_fst_perm h now).length_eq, selectDue, List.length_take,
    (sortedDue_perm rows now).length_eq]

theorem claim_perm (rows : List Job) (now : Int) :
    ((claim rows now).1 ++ (claim rows now).2).Perm rows := by
  unfold claim
  exact List.filter_append_perm _ _

theorem claim_fst_due {rows : List Job} (h : IdsUnique rows) {now : Int} {j : Job}
    (hj : j ∈ (claim rows now).1) : j ∈ rows ∧ isDue now j = true :=
  mem_selectDue ((mem_claim_fst h).1 hj)

theorem claim_snd_due_mem_drop {rows : List Job} {now : Int} {k : Job}
    (hk : k ∈ (claim rows now).2) (hd : isDue now k = true) :
    k ∈ ((rows.filter (isDue now)).insertionSort jobLe).drop 5 := by
  obtain ⟨hkr, hid⟩ := mem_claim_snd.1 hk
  have hm : k ∈ (rows.filter (isDue now)).insertionSort jobLe := mem_sortedDue.2 ⟨hkr, hd⟩
  rw [← List.take_append_drop 5 ((rows.filter (isDue now)).insertionSort jobLe),
    List.mem_append] at hm
  rcases hm with hm | hm
  · exact absurd (List.mem_map_of_mem Job.ID hm) hid
  · exact hm

theorem claim_fst_le_snd {rows : List Job} (h : IdsUnique rows) {now : Int} {j k : Job}
    (hj : j ∈ (claim rows now).1) (hk : k ∈ (claim rows now).2)
    (hd : isDue now k = true) : jobLe j k := by
  have hj1 : j ∈ ((rows.filter (isDue now)).insertionSort jobLe).take 5 :=
    (mem_claim_fst h).1 hj
  have hk1 := claim_snd_due_mem_drop hk hd
  have hs := sortedDue_sorted rows now
  rw [← List.take_append_drop 5 ((rows.filter (isDue now)).insertionSort jobLe)] at hs
  exact (List.pairwise_append.1 hs).2.2 j hj1 k hk1

theorem claim_snd_due_length {rows : List Job} (h : IdsUnique rows) (now : Int) :
    ((claim rows now).2.filter (isDue now)).length =
      (rows.filter (isDue now)).length - min 5 (rows.filter (isDue now)).length := by
  have hp := ((claim_perm rows now).filter (isDue now)).length_eq
  have hb : (claim rows now).1.filter (isDue now) = (claim rows now).1 :=
    List.filter_eq_self.2 (fun j hj => (claim_fst_due h hj).2)
  rw [List.filter_append, List.length_append, hb, claim_fst_length h now] at hp
  omega

/-! ## The claims on the worker loop's claim -/

/-- C1, as stated, fails: with a Low job stored ahead of a High job, both
  due, the claim returns the Low job first, whereas the order (priority,
  created) puts the High job first. -/
theorem claim_order_counterexample :
    IdsUnique exLowThenHigh ∧
    (claim exLowThenHigh 10).1 =
      [⟨"01", "report", [], JobPriorityLow, 1⟩, ⟨"02", "alert", [], JobPriorityHigh, 2⟩] ∧
    ((exLowThenHigh.filter (isDue 10)).insertionSort jobLe).take 5 =
      [⟨"02", "alert", [], JobPriorityHigh, 2⟩, ⟨"01", "report", [], JobPriorityLow, 1⟩] := by
  decide

/-- C1, amended: the batch of one claim holds, in some order, the
  min(5, number of due jobs) first jobs of the due jobs sorted by (priority,
  created); every claimed job is at most every due job left behind in that
  order, so no due job is left behind while a job of strictly lower priority
  (a greater number) is claimed. -/
theorem claim_batch_smallest (rows : List Job) (now : Int) (h : IdsUnique rows) :
    (claim rows now).1.Perm (((rows.filter (isDue now)).insertionSort jobLe).take 5) ∧
    ((rows.filter (isDue now)).insertionSort jobLe).Sorted jobLe ∧
    (claim rows now).1.length = min 5 (rows.filter (isDue now)).length ∧
    (∀ j ∈ (claim rows now).1, ∀ k ∈ (claim rows now).2, isDue now k = true → jobLe j k) ∧
    (∀ j ∈ (claim rows now).1, ∀ k ∈ (claim rows now).2, isDue now k = true →
      ¬ k.Priority < j.Priority) ∧
    (JobPriorityHigh = 1 ∧ JobPriorityMedium = 2 ∧ JobPriorityLow = 3) := by
  refine ⟨claim_fst_perm h now, sortedDue_sorted rows now, claim_fst_length h now, ?_, ?_,
    rfl, rfl, rfl⟩
  · intro j hj k hk hd
    exact claim_fst_le_snd h hj hk hd
  · intro j hj k hk hd
    have := claim_fst_le_snd h hj hk hd
    unfold jobLe at this
    omega

theorem claim_batch_smallest_witness :
    IdsUnique exLowThenHigh ∧
    (claim exLowThenHigh 10).1.length = min 5 (exLowThenHigh.filter (isDue 10)).length :=
  ⟨by decide, (claim_batch_smallest exLowThenHigh 10 (by decide)).2.2.1⟩

/-- C2, as stated, fails: a job inserted by `Delay` at time 0 with delay 10
  and five jobs inserted after it by `Enqueue` at time 10 have the same
  priority and the same `created`; the claim at time 11 returns the five
  later jobs and leaves the first one in the table. -/
theorem claim_fifo_counterexample :
    Delay [] "a" 0 0 "job" [] emptyArgsValue 10 [] = .returned [exOld] ∧
    Enqueue [exOld] "b1" 10 0 "job" [] emptyArgsValue [] = .returned [exNew "b1", exOld] ∧
    Enqueue [exNew "b1", exOld] "b2" 10 0 "job" [] emptyArgsValue [] =
      .returned [exNew "b2", exNew "b1", exOld] ∧
    Enqueue [exNew "b2", exNew "b1", exOld] "b3" 10 0 "job" [] emptyArgsValue [] =
      .returned [exNew "b3", exNew "b2", exNew "b1", exOld] ∧
    Enqueue [exNew "b3", exNew "b2", exNew "b1", exOld] "b4" 10 0 "job" [] emptyArgsValue [] =
      .returned [exNew "b4", exNew "b3", exNew "b2", exNew "b1", exOld] ∧
    Enqueue [exNew "b4", exNew "b3", exNew "b2", exNew "b1", exOld] "b5" 10 0 "job" [] emptyArgsValue [] =
      .returned [exNew "b5", exNew "b4", exNew "b3", exNew "b2", exNew "b1", exOld] ∧
    claim [exNew "b5", exNew "b4", exNew "b3", exNew "b2", exNew "b1", exOld] 11 =
      ([exNew "b5", exNew "b4", exNew "b3", exNew "b2", exNew "b1"], [exOld]) := by
  decide

/-- C2, amended: of two due jobs of the same priority with different
  `created`, the one with the earlier `created` is claimed first: a claim
  that returns the later one returns the earlier one too. -/
theorem claim_earlier_first (rows : List Job) (now : Int) (h : IdsUnique rows)
    (a b : Job) (ha : a ∈ rows) (hda : isDue now a = true)
    (hp : a.Priority = b.Priority) (hlt : a.Created < b.Created)
    (hb : b ∈ (claim rows now).1) : a ∈ (claim rows now).1 := by
  by_contra hna
  have ha2 : a ∈ (claim rows now).2 := by
    have := (claim_perm rows now).mem_iff.2 ha
    rw [List.mem_append] at this
    exact this.resolve_left hna
  have := claim_fst_le_snd h hb ha2 hda
  unfold jobLe at this
  omega

theorem claim_earlier_first_witness :
    (⟨"02", "alert", [], JobPriorityHigh, 2⟩ : Job) ∈
      (claim [⟨"03", "alert", [], JobPriorityHigh, 3⟩, ⟨"02", "alert", [], JobPriorityHigh, 2⟩]
        10).1 :=
  claim_earlier_first
    [⟨"03", "alert", [], JobPriorityHigh, 3⟩, ⟨"02", "alert", [], JobPriorityHigh, 2⟩] 10
    (by decide) ⟨"02", "alert", [], JobPriorityHigh, 2⟩ ⟨"03", "alert", [], JobPriorityHigh, 3⟩
    (by decide) (by decide) (by decide) (by decide) (by decide)

/-- C3: of two claims applied to a table one after the other, at any two
  times and in either order of the two workers, no row is returned by both;
  the rows returned do not even share an id. -/
theorem claims_disjoint (rows : List Job) (nowA nowB : Int) :
    (∀ j ∈ (claim rows nowA).1, ∀ k ∈ (claim (claim rows nowA).2 nowB).1, j.ID ≠ k.ID) ∧
    (∀ j ∈ (claim rows nowB).1, ∀ k ∈ (claim (claim rows nowB).2 nowA).1, j.ID ≠ k.ID) ∧
    List.Disjoint (claim rows nowA).1 (claim (claim rows nowA).2 nowB).1 ∧
    List.Disjoint (claim rows nowB).1 (claim (claim rows nowB).2 nowA).1 := by
  have key : ∀ (n1 n2 : Int), ∀ j ∈ (claim rows n1).1,
      ∀ k ∈ (claim (claim rows n1).2 n2).1, j.ID ≠ k.ID := by
    intro n1 n2 j hj k hk hid
    have hk2 : k ∈ (claim rows n1).2 := (claim_fst_sublist _ n2).subset hk
    have hj1 : j.ID ∈ selectIds rows n1 := by
      simp only [claim, List.mem_filter, decide_eq_true_eq] at hj
      exact hj.2
    exact (mem_claim_snd.1 hk2).2 (hid ▸ hj1)
  refine ⟨key nowA nowB, key nowB nowA, ?_, ?_⟩
  · intro j hj hk
    exact key nowA nowB j hj j hk rfl
  · intro j hj hk
    exact key nowB nowA j hj j hk rfl

/-- C4, as stated, fails for K = 11: two claims against eleven due jobs
  return five jobs each, ten in all, and leave one due job unclaimed. -/
theorem two_claims_counterexample :
    IdsUnique exEleven ∧ (exEleven.filter (isDue 1)).length = 11 ∧
    ((claim exEleven 1).1 ++ (claim (claim exEleven 1).2 1).1).length = 10 ∧
    (claim (claim exEleven 1).2 1).2 = [⟨"k", "job", [], JobPriorityLow, 0⟩] := by
  decide

/-- C4, amended: two claims, one after the other, against a table whose
  due set is the same K jobs at both claim times return min(K, 10) jobs in
  all, no job twice and only due jobs of the table; when K is at most 10
  they return every due job, so exactly those K jobs. -/
theorem two_claims_union (rows : List Job) (now1 now2 : Int) (h : IdsUnique rows)
    (hdue : ∀ j ∈ rows, isDue now2 j = isDue now1 j) :
    ((claim rows now1).1 ++ (claim (claim rows now1).2 now2).1).length =
      min (rows.filter (isDue now1)).length 10 ∧
    ((claim rows now1).1 ++ (claim (claim rows now1).2 now2).1).Nodup ∧
    (∀ j ∈ (claim rows now1).1 ++ (claim (claim rows now1).2 now2).1,
      j ∈ rows ∧ isDue now1 j = true) ∧
    ((rows.filter (isDue now1)).length ≤ 10 →
      ((claim rows now1).1 ++ (claim (claim rows now1).2 now2).1).Perm
        (rows.filter (isDue now1))) := by
  have hsub := claim_snd_sublist rows now1
  have h2 : IdsUnique (claim rows now1).2 := idsUnique_of_sublist hsub h
  have hf : (claim rows now1).2.filter (isDue now2) = (claim rows now1).2.filter (isDue now1) :=
    List.filter_congr (fun j hj => hdue j (hsub.subset hj))
  have hlen1 := claim_fst_length h now1
  have hlen2 := claim_fst_length h2 now2
  rw [hf, claim_snd_due_length h now1] at hlen2
  have hnd : ((claim rows now1).1 ++ (claim (claim rows now1).2 now2).1).Nodup := by
    have hp := (nodup_of_idsUnique h)
    rw [← (claim_perm rows now1).nodup_iff] at hp
    exact hp.sublist
      (List.Sublist.append (List.Sublist.refl _) (claim_fst_sublist _ now2))
  have hmem : ∀ j ∈ (claim rows now1).1 ++ (claim (claim rows now1).2 now2).1,
      j ∈ rows ∧ isDue now1 j = true := by
    intro j hj
    rcases List.mem_append.1 hj with hj | hj
    · exact claim_fst_due h hj
    · have := claim_fst_due h2 hj
      exact ⟨hsub.subset this.1, (hdue j (hsub.subset this.1)) ▸ this.2⟩
  have hlen : ((claim rows now1).1 ++ (claim (claim rows now1).2 now2).1).length =
      min (rows.filter (isDue now1)).length 10 := by
    rw [List.length_append, hlen1, hlen2]
    omega
  refine ⟨hlen, hnd, hmem, ?_⟩
  intro hK
  have hsubp : ((claim rows now1).1 ++ (claim (claim rows now1).2 now2).1).Subperm
      (rows.filter (isDue now1)) :=
    List.subperm_of_subset hnd (fun j hj => List.mem_filter.2 (hmem j hj))
  refine hsubp.perm_of_length_le ?_
  rw [hlen]
  omega

theorem two_claims_union_witness :
    IdsUnique exEleven ∧
    ((claim exEleven 1).1 ++ (claim (claim exEleven 1).2 2).1).length =
      min (exEleven.filter (isDue 1)).length 10 :=
  ⟨by decide, (two_claims_union exEleven 1 2 (by decide) (by decide)).1⟩

/-- C5: a claim returns at most five rows, the table it leaves is the old
  table without the rows returned (every other row stays, unchanged and in
  place), a row that is not due stays, and in the worker loop the first
  handler starts in a state whose table holds no claimed row. -/
theorem claim_removes_what_it_returns (rows : List Job) (now : Int) (h : IdsUnique rows) :
    (claim rows now).1.length ≤ 5 ∧
    ((claim rows now).1 ++ (claim rows now).2).Perm rows ∧
    (claim rows now).2.Sublist rows ∧
    (∀ j ∈ rows, j ∈ (claim rows now).2 ↔ j ∉ (claim rows now).1) ∧
    (∀ j ∈ rows, ¬ j.Created < now → j ∈ (claim rows now).2) ∧
    (∀ (jobs : JobRegistry) (w : World), w.db.jobs = rows →
      (startIteration jobs w now).batch = (claim rows now).1 ∧
      (startIteration jobs w now).atStart.db.jobs = (claim rows now).2 ∧
      (startIteration jobs w now).outcome =
        (runJobs jobs (claim rows now).1 (startIteration jobs w now).atStart).2 ∧
      ∀ j ∈ (startIteration jobs w now).batch,
        j.ID ∉ (startIteration jobs w now).atStart.db.jobs.map Job.ID) := by
  have hiff : ∀ j ∈ rows, j ∈ (claim rows now).2 ↔ j ∉ (claim rows now).1 := by
    intro j hj
    simp [claim, List.mem_filter, hj]
  refine ⟨?_, claim_perm rows now, claim_snd_sublist rows now, hiff, ?_, ?_⟩
  · rw [claim_fst_length h now]
    omega
  · intro j hj hnd
    rw [hiff j hj]
    intro hc
    have := (claim_fst_due h hc).2
    simp only [isDue, decide_eq_true_eq] at this
    exact hnd this
  · intro jobs w hw
    subst hw
    refine ⟨rfl, rfl, rfl, ?_⟩
    intro j hj hmem
    obtain ⟨k, hk, hid⟩ := List.mem_map.1 hmem
    have hk2 : k ∈ (claim w.db.jobs now).2 := hk
    have hj1 : j ∈ (claim w.db.jobs now).1 := hj
    have hkj : k = j :=
      eq_of_id_eq h ((claim_snd_sublist _ now).subset hk2)
        ((claim_fst_sublist _ now).subset hj1) hid
    subst hkj
    exact ((hiff k ((claim_snd_sublist _ now).subset hk2)).1 hk2) hj1

theorem claim_removes_what_it_returns_witness :
    IdsUnique exEleven ∧ (claim exEleven 1).1.length ≤ 5 :=
  ⟨by decide, (claim_removes_what_it_returns exEleven 1 (by decide)).1⟩

/-- C6, as stated, fails: a job whose `created` equals the claim time is
  not returned by the claim, although it is the only row of the table. -/
theorem claim_at_run_time_counterexample :
    (∀ j ∈ exAtTen, j.Created ≤ 10) ∧ claim exAtTen 10 = ([], exAtTen) := by
  decide

/-- C6, amended: the rows a claim at time `now` can return are exactly the
  rows with `created < now`: a returned row is one, and a row that is one
  is returned unless the claim returns five rows that all come no later in
  the order (priority, created); so it is returned when at most five rows
  are due. A row with `created = now` is not returned. -/
theorem claim_eligible_iff_before_now (rows : List Job) (now : Int) (h : IdsUnique rows) :
    (∀ j ∈ (claim rows now).1, j ∈ rows ∧ j.Created < now) ∧
    (∀ j ∈ rows, j.Created < now → j ∈ (claim rows now).1 ∨
      ((claim rows now).1.length = 5 ∧ ∀ k ∈ (claim rows now).1, jobLe k j)) ∧
    (∀ j ∈ rows, j.Created < now → (rows.filter (isDue now)).length ≤ 5 →
      j ∈ (claim rows now).1) ∧
    (∀ j ∈ rows, j.Created = now → j ∉ (claim rows now).1) := by
  have hsound : ∀ j ∈ (claim rows now).1, j ∈ rows ∧ j.Created < now := by
    intro j hj
    have := claim_fst_due h hj
    simpa [isDue] using this
  have hfull : ∀ j ∈ rows, j.Created < now → (rows.filter (isDue now)).length ≤ 5 →
      j ∈ (claim rows now).1 := by
    intro j hj hlt hlen
    rw [mem_claim_fst h, selectDue, List.take_of_length_le]
    · exact mem_sortedDue.2 ⟨hj, by simpa [isDue] using hlt⟩
    · rw [(sortedDue_perm rows now).length_eq]
      exact hlen
  refine ⟨hsound, ?_, hfull, ?_⟩
  · intro j hj hlt
    by_cases hc : j ∈ (claim rows now).1
    · exact Or.inl hc
    · right
      have hj2 : j ∈ (claim rows now).2 := by
        have := (claim_perm rows now).mem_iff.2 hj
        exact (List.mem_append.1 this).resolve_left hc
      have hd : isDue now j = true := by simpa [isDue] using hlt
      refine ⟨?_, fun k hk => claim_fst_le_snd h hk hj2 hd⟩
      rw [claim_fst_length h now]
      by_contra hne
      exact hc (hfull j hj hlt (by omega))
  · intro j _ heq hc
    have := (hsound j hc).2
    omega

theorem claim_eligible_iff_before_now_witness :
    IdsUnique exAtTen ∧ ∀ j ∈ exAtTen, j.Created = 10 → j ∉ (claim exAtTen 10).1 :=
  ⟨by decide, (claim_eligible_iff_before_now exAtTen 10 (by decide)).2.2.2⟩

/-! ## The claims on RunJob -/

theorem insertRow_perm (slot : Nat) (row : Job) (rows : List Job) :
    (insertRow slot row rows).Perm (row :: rows) := by
  unfold insertRow
  have h : (rows.take slot ++ row :: rows.drop slot).Perm
      (row :: (rows.take slot ++ rows.drop slot)) := List.perm_middle
  rwa [List.take_append_drop] at h

theorem insertRow_sublist (slot : Nat) (row : Job) (rows : List Job) :
    rows.Sublist (insertRow slot row rows) := by
  unfold insertRow
  have h : (rows.take slot ++ rows.drop slot).Sublist (rows.take slot ++ row :: rows.drop slot) :=
    List.Sublist.append (List.Sublist.refl _) (List.sublist_cons_self _ _)
  rwa [List.take_append_drop] at h

theorem log_db (w : World) (level message : String) (fields : List (String × (String ⊕ J))) :
    (Log w level message fields).db = w.db := rfl

/-- C8: for a name that the registry does not hold, `RunJob` returns to its
  caller, does not reach the call of a handler, and leaves the three tables
  as they were; all it does is write one log line. -/
theorem runJob_unregistered (jobs : JobRegistry) (w : World) (name : String) (args : J)
    (h : jobs name = none) :
    (RunJob jobs w name args).invoked = false ∧
    (RunJob jobs w name args).outcome =
      .returned (Log w "error" "RunJob: No job for given name" [("name", .inl name)]) ∧
    (RunJob jobs w name args).outcome.state.db = w.db ∧
    (RunJob jobs w name args).outcome.state.log =
      w.log ++ [⟨"error", "RunJob: No job for given name", [("name", .inl name)]⟩] := by
  have hr : RunJob jobs w name args =
      ⟨false, .returned (Log w "error" "RunJob: No job for given name" [("name", .inl name)])⟩ := by
    simp only [RunJob, h]
  rw [hr]
  exact ⟨rfl, rfl, rfl, rfl⟩

theorem runJob_unregistered_witness :
    (RunJob exJobs exWorld "missing" []).invoked = false ∧
    (RunJob exJobs exWorld "missing" []).outcome =
      .returned (Log exWorld "error" "RunJob: No job for given name" [("name", .inl "missing")]) ∧
    (RunJob exJobs exWorld "missing" []).outcome.state.db = exWorld.db :=
  let h := runJob_unregistered exJobs exWorld "missing" [] (by simp [exJobs])
  ⟨h.1, h.2.1, h.2.2.1⟩

/-- C9: for a registered name, a fault that the handler raises is recovered:
  `RunJob` logs it and returns; whatever the handler does, no fault leaves
  `RunJob`. -/
theorem runJob_recovers (jobs : JobRegistry) (w : World) (name : String) (args : J)
    (handler : Option Handler) (h : jobs name = some handler) :
    (∀ err w1, callHandler handler w args = .panicked err w1 →
      (RunJob jobs w name args).outcome =
        .returned (Log w1 "error" "JobQueue: RunJob: panic"
          [("name", .inl name), ("args", .inr args), ("error", .inl err)])) ∧
    (∀ err w1, (RunJob jobs w name args).outcome ≠ .panicked err w1) := by
  constructor
  · intro err w1 hc
    simp only [RunJob, h, hc]
  · intro err w1
    simp only [RunJob, h]
    cases callHandler handler w args <;> simp

theorem runJob_recovers_witness :
    (RunJob exJobs exWorld "boom" []).outcome =
      .returned (Log (Log exWorld "info" "started" []) "error" "JobQueue: RunJob: panic"
        [("name", .inl "boom"), ("args", .inr []), ("error", .inl "boom")]) :=
  (runJob_recovers exJobs exWorld "boom" [] (some exBoom) (by simp [exJobs])).1 "boom"
    (Log exWorld "info" "started" []) rfl

/-! ## The claim on one iteration of the worker loop -/

theorem runJob_db (jobs : JobRegistry) (w : World) (name : String) (args : J) :
    (RunJob jobs w name args).outcome.state.db =
      match jobs name with
      | none => w.db
      | some handler => (callHandler handler w args).state.db := by
  unfold RunJob
  cases jobs name with
  | none => rfl
  | some handler =>
    simp only
    cases callHandler handler w args <;> rfl

theorem runJob_not_panicked (jobs : JobRegistry) (w : World) (name : String) (args : J)
    (err : String) (w1 : World) : (RunJob jobs w name args).outcome ≠ .panicked err w1 := by
  unfold RunJob
  cases jobs name with
  | none => simp
  | some handler =>
    simp only
    cases callHandler handler w args <;> simp

theorem runJob_exited (jobs : JobRegistry) (w : World) (name : String) (args : J)
    (w1 : World) (hx : (RunJob jobs w name args).outcome = .exited w1) :
    ∃ h, jobs name = some (some h) ∧ h w args = .exited w1 := by
  unfold RunJob at hx
  cases hj : jobs name with
  | none =>
    rw [hj] at hx
    simp at hx
  | some handler =>
    rw [hj] at hx
    cases handler with
    | none => simp [callHandler] at hx
    | some h =>
      refine ⟨h, rfl, ?_⟩
      simp only [callHandler] at hx
      cases hh : h w args with
      | returned w2 =>
        rw [hh] at hx
        simp at hx
      | panicked err w2 =>
        rw [hh] at hx
        simp at hx
      | exited w2 =>
        rw [hh] at hx
        simp only [Outcome.exited.injEq] at hx
        rw [hx]

theorem runJob_keeps_jobs (jobs : JobRegistry) (w : World) (name : String) (args : J)
    (hKeep : ∀ h, jobs name = some (some h) → (h w args).state.db.jobs = w.db.jobs) :
    (RunJob jobs w name args).outcome.state.db.jobs = w.db.jobs := by
  rw [runJob_db]
  cases hj : jobs name with
  | none => rfl
  | some handler =>
    cases handler with
    | none => rfl
    | some h => exact hKeep h hj

/-- The calls a pass makes: no fault leaves it; when it returns, `RunJob`
  was called for every job of the batch, in order; when a handler ends the
  process, `RunJob` was called for the jobs up to that one and for no job
  after it. -/
theorem runJobs_calls (jobs : JobRegistry) : ∀ (batch : List Job) (w : World),
    (∀ err w1, (runJobs jobs batch w).2 ≠ .panicked err w1) ∧
    ((∃ w1, (runJobs jobs batch w).2 = .returned w1) →
      (runJobs jobs batch w).1 = batch.map (fun j => (j.Name, j.Args))) ∧
    (∀ w1, (runJobs jobs batch w).2 = .exited w1 →
      ∃ pre j post, batch = pre ++ j :: post ∧
        (runJobs jobs batch w).1 = (pre ++ [j]).map (fun j => (j.Name, j.Args)) ∧
        ∃ h w0, jobs j.Name = some (some h) ∧ h w0 j.Args = .exited w1)
  | [], w => by
    refine ⟨fun err w1 => ?_, fun _ => rfl, fun w1 hx => ?_⟩
    · simp [runJobs]
    · simp [runJobs] at hx
  | job :: rest, w => by
    cases hr : (RunJob jobs w job.Name job.Args).outcome with
    | returned w1 =>
      obtain ⟨ih1, ih2, ih3⟩ := runJobs_calls jobs rest w1
      have h1 : (runJobs jobs (job :: rest) w).1 =
          (job.Name, job.Args) :: (runJobs jobs rest w1).1 := by
        simp only [runJobs, hr]
      have h2 : (runJobs jobs (job :: rest) w).2 = (runJobs jobs rest w1).2 := by
        simp only [runJobs, hr]
      rw [h1, h2]
      refine ⟨ih1, fun hret => ?_, fun w2 hx => ?_⟩
      · rw [ih2 hret, List.map_cons]
      · obtain ⟨pre, j, post, hb, hd, hh⟩ := ih3 w2 hx
        refine ⟨job :: pre, j, post, ?_, ?_, hh⟩
        · rw [hb, List.cons_append]
        · rw [hd, List.cons_append, List.map_cons]
    | panicked err w1 => exact absurd hr (runJob_not_panicked jobs w job.Name job.Args err w1)
    | exited w1 =>
      have h1 : (runJobs jobs (job :: rest) w).1 = [(job.Name, job.Args)] := by
        simp only [runJobs, hr]
      have h2 : (runJobs jobs (job :: rest) w).2 = .exited w1 := by
        simp only [runJobs, hr]
      rw [h1, h2]
      refine ⟨fun err w2 => by simp, fun hret => ?_, fun w2 hx => ?_⟩
      · obtain ⟨w2, hw2⟩ := hret
        simp at hw2
      · simp only [Outcome.exited.injEq] at hx
        subst hx
        obtain ⟨h, hj, hh⟩ := runJob_exited jobs w job.Name job.Args w1 hr
        exact ⟨[], job, rest, rfl, rfl, h, w, hj, hh⟩

theorem runJobs_returns (jobs : JobRegistry) : ∀ (batch : List Job) (w : World),
    (∀ j ∈ batch, ∀ h, jobs j.Name = some (some h) → ∀ w0 w1, h w0 j.Args ≠ .exited w1) →
    ∃ w1, (runJobs jobs batch w).2 = .returned w1
  | [], w, _ => ⟨w, rfl⟩
  | job :: rest, w, hNoExit => by
    cases hr : (RunJob jobs w job.Name job.Args).outcome with
    | returned w1 =>
      obtain ⟨w2, hw2⟩ := runJobs_returns jobs rest w1
        (fun j hj => hNoExit j (List.mem_cons_of_mem _ hj))
      exact ⟨w2, by simp only [runJobs, hr, hw2]⟩
    | panicked err w1 => exact absurd hr (runJob_not_panicked jobs w job.Name job.Args err w1)
    | exited w1 =>
      obtain ⟨h, hj, hh⟩ := runJob_exited jobs w job.Name job.Args w1 hr
      exact absurd hh (hNoExit job (List.mem_cons_self _ _) h hj w w1)

theorem runJobs_keeps_jobs (jobs : JobRegistry) : ∀ (batch : List Job) (w : World),
    (∀ j ∈ batch, ∀ h, jobs j.Name = some (some h) →
      ∀ w0, (h w0 j.Args).state.db.jobs = w0.db.jobs) →
    (runJobs jobs batch w).2.state.db.jobs = w.db.jobs
  | [], _, _ => rfl
  | job :: rest, w, hKeep => by
    have hk := runJob_keeps_jobs jobs w job.Name job.Args
      (fun h hj => hKeep job (List.mem_cons_self _ _) h hj w)
    simp only [runJobs]
    cases hr : (RunJob jobs w job.Name job.Args).outcome with
    | returned w1 =>
      rw [hr] at hk
      simp only
      rw [runJobs_keeps_jobs jobs rest w1 (fun j hj => hKeep j (List.mem_cons_of_mem _ hj))]
      exact hk
    | panicked err w1 =>
      rw [hr] at hk
      exact hk
    | exited w1 =>
      rw [hr] at hk
      exact hk

/-- C10, as stated, fails: a handler may end the process, as `ExecCmd` does
  with `os.Exit(1)`, which no `recover` catches. The claim deletes both jobs
  of the batch; `RunJob` is called for the first, whose handler ends the
  process, and never for the second, which is no longer in the queue. -/
theorem worker_pass_exit_counterexample :
    (startIteration exJobsExit exWorldExit 10).batch =
      [⟨"1", "db-setup", [], JobPriorityHigh, 1⟩, ⟨"2", "fine", [], JobPriorityHigh, 2⟩] ∧
    (startIteration exJobsExit exWorldExit 10).atStart.db.jobs = [] ∧
    (startIteration exJobsExit exWorldExit 10).dispatched = [("db-setup", [])] ∧
    (startIteration exJobsExit exWorldExit 10).outcome =
      .exited ⟨⟨[], [], []⟩, [⟨"error", "ExecCmd: Error running commmand", []⟩]⟩ := by
  decide

/-- C10, amended: in one pass of the worker loop `RunJob` is called for the
  claimed jobs in the order of the batch, each at most once, and no fault
  leaves the pass, whether or not a name is unregistered or a handler raises.
  When every handler called for a job of the batch returns or raises (none
  ends the process), the pass returns and every claimed job was dispatched
  exactly once. When a handler ends the process, the jobs of the batch up to
  that one were dispatched and the jobs after it were not. `RunJob` changes the tables only through the
  handler it calls: when the handlers called leave the job table alone, the
  table after the pass is the one the claim left, so it holds no claimed
  job. -/
theorem worker_pass_dispatches_each_once (jobs : JobRegistry) (w : World) (now : Int) :
    (startIteration jobs w now).batch = (claim w.db.jobs now).1 ∧
    (∀ err w1, (startIteration jobs w now).outcome ≠ .panicked err w1) ∧
    ((∃ w1, (startIteration jobs w now).outcome = .returned w1) →
      (startIteration jobs w now).dispatched =
        (startIteration jobs w now).batch.map (fun j => (j.Name, j.Args))) ∧
    ((∀ j ∈ (startIteration jobs w now).batch, ∀ h, jobs j.Name = some (some h) →
        ∀ w0 w1, h w0 j.Args ≠ .exited w1) →
      (∃ w1, (startIteration jobs w now).outcome = .returned w1) ∧
      (startIteration jobs w now).dispatched =
        (startIteration jobs w now).batch.map (fun j => (j.Name, j.Args))) ∧
    (∀ w1, (startIteration jobs w now).outcome = .exited w1 →
      ∃ pre j post, (startIteration jobs w now).batch = pre ++ j :: post ∧
        (startIteration jobs w now).dispatched = (pre ++ [j]).map (fun j => (j.Name, j.Args)) ∧
        ∃ h w0, jobs j.Name = some (some h) ∧ h w0 j.Args = .exited w1) ∧
    (∀ (w0 : World) (name : String) (args : J),
      (RunJob jobs w0 name args).outcome.state.db =
        match jobs name with
        | none => w0.db
        | some handler => (callHandler handler w0 args).state.db) ∧
    ((∀ j ∈ (startIteration jobs w now).batch, ∀ h, jobs j.Name = some (some h) →
        ∀ w0, (h w0 j.Args).state.db.jobs = w0.db.jobs) →
      (startIteration jobs w now).outcome.state.db.jobs = (claim w.db.jobs now).2 ∧
      (IdsUnique w.db.jobs → ∀ j ∈ (startIteration jobs w now).batch,
        j.ID ∉ (startIteration jobs w now).outcome.state.db.jobs.map Job.ID)) := by
  have hc := runJobs_calls jobs (claim w.db.jobs now).1
    { w with db := { w.db with jobs := (claim w.db.jobs now).2 } }
  refine ⟨rfl, hc.1, hc.2.1, fun hNoExit => ?_, hc.2.2,
    fun w0 name args => runJob_db jobs w0 name args, ?_⟩
  · have hret := runJobs_returns jobs (claim w.db.jobs now).1
      { w with db := { w.db with jobs := (claim w.db.jobs now).2 } } hNoExit
    exact ⟨hret, hc.2.1 hret⟩
  intro hKeep
  have hk : (startIteration jobs w now).outcome.state.db.jobs = (claim w.db.jobs now).2 :=
    runJobs_keeps_jobs jobs (claim w.db.jobs now).1
      { w with db := { w.db with jobs := (claim w.db.jobs now).2 } } hKeep
  refine ⟨hk, ?_⟩
  intro hu j hj hmem
  rw [hk] at hmem
  obtain ⟨k, hk2, hid⟩ := List.mem_map.1 hmem
  have hj1 : j ∈ (claim w.db.jobs now).1 := hj
  have hkj : k = j :=
    eq_of_id_eq hu ((claim_snd_sublist _ now).subset hk2)
      ((claim_fst_sublist _ now).subset hj1) hid
  subst hkj
  have h1 : k.ID ∈ selectIds w.db.jobs now := by
    simp only [claim, List.mem_filter, decide_eq_true_eq] at hj1
    exact hj1.2
  exact (mem_claim_snd.1 hk2).2 h1

theorem worker_pass_dispatches_each_once_witness :
    (startIteration exJobs exWorld 10).batch = exWorld.db.jobs ∧
    (∃ w1, (startIteration exJobs exWorld 10).outcome = .returned w1) ∧
    (startIteration exJobs exWorld 10).dispatched =
      (startIteration exJobs exWorld 10).batch.map (fun j => (j.Name, j.Args)) :=
  ⟨by decide, (worker_pass_dispatches_each_once exJobs exWorld 10).2.2.2.1 (by
      intro j _ h hreg w0 w1
      unfold exJobs at hreg
      split_ifs at hreg <;> simp at hreg <;> subst hreg <;> simp [exBoom, exFine])⟩

/-! ## Lemmas on Round -/

theorem round_of_nonpos (t d : Int) (h : d ≤ 0) : Round t d = t := by
  simp [Round, h]

theorem round_dvd (t d : Int) (h : 0 < d) : d ∣ Round t d := by
  have hdef := Int.emod_add_ediv t d
  unfold Round
  rw [if_neg (by omega)]
  split_ifs
  · exact ⟨t / d, by omega⟩
  · exact ⟨t / d + 1, by rw [mul_add, mul_one]; omega⟩

theorem round_near (t d : Int) (h : 0 < d) :
    2 * (t - Round t d) < d ∧ 2 * (Round t d - t) ≤ d := by
  have h1 := Int.emod_nonneg t (by omega : d ≠ 0)
  have h2 := Int.emod_lt_of_pos t h
  unfold Round
  rw [if_neg (by omega)]
  split_ifs <;> constructor <;> omega

theorem round_eq_self_iff (t d : Int) (h : 0 < d) : Round t d = t ↔ d ∣ t := by
  constructor
  · intro he
    rw [← he]
    exact round_dvd t d h
  · intro hd
    have h0 : t % d = 0 := Int.emod_eq_zero_of_dvd hd
    unfold Round
    rw [if_neg (by omega), h0]
    simp [h]

theorem round_after (now d : Int) (h : 0 ≤ d) : now < Round (now + d) d ∨
    (d = 0 ∧ Round (now + d) d = now) := by
  rcases eq_or_lt_of_le h with h0 | hpos
  · right
    subst h0
    simp [Round]
  · left
    have := round_near (now + d) d hpos
    omega

theorem round_from_boundary (B now d : Int) (h : 0 < d) (hB : d ∣ B) (h1 : B ≤ now)
    (h2 : now < B + d) :
    Round (now + d) d = if 2 * (now - B) < d then B + d else B + 2 * d := by
  obtain ⟨k, rfl⟩ := hB
  have hr : (now + d) % d = now - d * k := by
    have e : now + d = (now - d * k) + d * (k + 1) := by ring
    rw [e, Int.add_mul_emod_self_left]
    exact Int.emod_eq_of_lt (by omega) (by omega)
  unfold Round
  rw [if_neg (by omega), hr]
  split_ifs <;> omega

/-! ## The claims on registration -/

/-- C11, as stated, fails: after `RegisterJob("x", nil)` the name "x" is in
  the registry (bound to a nil function), and a second `RegisterJob` of "x"
  does not fail but rebinds it. -/
theorem registerJob_counterexample :
    (RegisterJob (fun _ => none) "x" none).state "x" = some none ∧
    ∃ jobs1, RegisterJob (RegisterJob (fun _ => none) "x" none).state "x" (some exFine) =
      .returned jobs1 ∧ jobs1 "x" = some (some exFine) := by
  refine ⟨by simp [RegisterJob, Outcome.state],
    fun n => if n = "x" then some (some exFine) else if n = "x" then some none else none,
    ?_, by simp⟩
  simp [RegisterJob, Outcome.state]

/-- C11, amended: `RegisterJob(name, handler)` fails fatally if and only if
  `name` is already bound to a handler that is not nil; when it fails the
  registry is unchanged, and when it succeeds the registry maps `name` to
  `handler` and every other entry is unchanged. -/
theorem registerJob_fails_iff (jobs : JobRegistry) (name : String)
    (handler : Option Handler) :
    ((∃ msg jobs1, RegisterJob jobs name handler = .panicked msg jobs1) ↔
      ∃ h, jobs name = some (some h)) ∧
    (∀ msg jobs1, RegisterJob jobs name handler = .panicked msg jobs1 → jobs1 = jobs) ∧
    (∀ jobs1, RegisterJob jobs name handler = .returned jobs1 →
      jobs1 name = some handler ∧ ∀ n, n ≠ name → jobs1 n = jobs n) ∧
    (∀ jobs1, RegisterJob jobs name handler ≠ .exited jobs1) ∧
    ((¬ ∃ h, jobs name = some (some h)) →
      ∃ jobs1, RegisterJob jobs name handler = .returned jobs1) := by
  unfold RegisterJob
  rcases hj : jobs name with _ | _ | h
  · simp
    intro n hn
    simp [hn]
  · simp
    intro n hn
    simp [hn]
  · simp

theorem lookup_eq_none_of_not_mem (m : ScheduleRegistry) (k : String)
    (h : k ∉ m.map Prod.fst) : m.lookup k = none := by
  induction m with
  | nil => rfl
  | cons e m ih =>
    simp only [List.map_cons, List.mem_cons, not_or] at h
    obtain ⟨k1, v1⟩ := e
    have hne : (k == k1) = false := by simpa using h.1
    rw [List.lookup_cons, hne]
    exact ih h.2

theorem lookup_mapAssign_self (m : ScheduleRegistry) (k : String) (v : Int) :
    (mapAssign m k v).lookup k = some v := by
  unfold mapAssign
  split_ifs with hk
  · induction m with
    | nil => simp at hk
    | cons e m ih =>
      obtain ⟨k1, v1⟩ := e
      by_cases h1 : k1 = k
      · subst h1
        simp
      · have hne : (k == k1) = false := by simpa using (Ne.symm h1)
        have hk2 : k ∈ m.map Prod.fst := by
          simp only [List.map_cons, List.mem_cons] at hk
          rcases hk with hk | hk
          · exact absurd hk.symm h1
          · exact hk
        simp only [List.map_cons, if_neg h1, List.lookup_cons, hne]
        exact ih hk2
  · rw [List.lookup_append, lookup_eq_none_of_not_mem m k hk]
    simp

theorem intervalOf_mapAssign_self (m : ScheduleRegistry) (k : String) (v : Int) :
    intervalOf (mapAssign m k v) k = v := by
  simp [intervalOf, lookup_mapAssign_self]

/-- C12, as stated, fails: after `RegisterSchedule("x", 0)` a second
  `RegisterSchedule("x", 5)` does not fail and changes the registry. -/
theorem registerSchedule_counterexample :
    RegisterSchedule [] "x" 0 = .returned [("x", 0)] ∧
    RegisterSchedule [("x", 0)] "x" 5 = .returned [("x", 5)] := by
  decide

/-- C12, amended: a second `RegisterSchedule` with a name whose first
  registration used an interval other than 0 fails fatally and leaves the
  registry unchanged, whatever the second interval; more generally it fails
  so exactly when `globalSchedules[jobName]` is not 0. -/
theorem registerSchedule_twice (globalSchedules reg1 : ScheduleRegistry) (jobName : String)
    (first second : Int)
    (h1 : RegisterSchedule globalSchedules jobName first = .returned reg1)
    (hd : first ≠ 0) :
    RegisterSchedule reg1 jobName second =
      .panicked ("RegisterSchedule: " ++ jobName ++ " already registered") reg1 ∧
    (∀ (reg : ScheduleRegistry) (d : Int),
      ((∃ msg, RegisterSchedule reg jobName d = .panicked msg reg) ↔
        intervalOf reg jobName ≠ 0) ∧
      (intervalOf reg jobName = 0 →
        RegisterSchedule reg jobName d = .returned (mapAssign reg jobName d))) := by
  constructor
  · unfold RegisterSchedule at h1
    split_ifs at h1 with h0
    injection h1 with h1
    subst h1
    unfold RegisterSchedule
    rw [if_pos (by rw [intervalOf_mapAssign_self]; exact hd)]
  · intro reg d
    unfold RegisterSchedule
    by_cases h0 : intervalOf reg jobName = 0
    · simp [h0]
    · simp [h0]

theorem registerSchedule_twice_witness :
    RegisterSchedule [("cleanup", 3600)] "cleanup" 60 =
      .panicked ("RegisterSchedule: " ++ "cleanup" ++ " already registered")
        [("cleanup", 3600)] :=
  (registerSchedule_twice [] [("cleanup", 3600)] "cleanup" 3600 60 (by decide)
    (by decide)).1

/-! ## Lemmas on the conditional update -/

theorem sched_eq_of_id_eq {table : List Schedule} (h : SchedIdsUnique table) {a b : Schedule}
    (ha : a ∈ table) (hb : b ∈ table) (hid : a.ID = b.ID) : a = b :=
  List.inj_on_of_nodup_map h ha hb hid

theorem updateSchedule_fst_of_unique {table : List Schedule} (hu : SchedIdsUnique table)
    {v : Schedule} (hv : v ∈ table) (now lastRan nextRun : Int) :
    (updateSchedule table v.ID now lastRan nextRun).1 =
      if v.NextRun < now then [⟨v.ID, lastRan, nextRun⟩] else [] := by
  have hf : table.filter (fun r => decide (r.ID = v.ID ∧ r.NextRun < now)) =
      if v.NextRun < now then [v] else [] := by
    induction table with
    | nil => simp at hv
    | cons r rs ih =>
      have hnd : r.ID ∉ rs.map Schedule.ID ∧ SchedIdsUnique rs := by
        simpa [SchedIdsUnique] using hu
      rcases List.mem_cons.1 hv with hvr | hvr
      · subst hvr
        have hrest : rs.filter (fun r => decide (r.ID = v.ID ∧ r.NextRun < now)) = [] := by
          rw [List.filter_eq_nil_iff]
          intro x hx
          have : x.ID ≠ v.ID := fun he => hnd.1 (he ▸ List.mem_map_of_mem Schedule.ID hx)
          simp [this]
        rw [List.filter_cons, hrest]
        by_cases hc : v.NextRun < now
        · simp [hc]
        · simp [hc]
      · have hne : r.ID ≠ v.ID := fun he => hnd.1 (he ▸ List.mem_map_of_mem Schedule.ID hvr)
        rw [List.filter_cons]
        simp only [hne, false_and, decide_False, Bool.false_eq_true, if_false]
        exact ih hnd.2 hvr
  unfold updateSchedule
  simp only
  rw [hf]
  split_ifs <;> rfl

theorem updateSchedule_snd_ids (table : List Schedule) (id : String)
    (now lastRan nextRun : Int) :
    (updateSchedule table id now lastRan nextRun).2.map Schedule.ID = table.map Schedule.ID := by
  unfold updateSchedule
  simp only [List.map_map]
  apply List.map_congr_left
  intro r _
  simp only [Function.comp]
  split_ifs <;> rfl

theorem updateSchedule_snd_mem {table : List Schedule} {v : Schedule} (hv : v ∈ table)
    (now lastRan nextRun : Int) (hc : v.NextRun < now) :
    (⟨v.ID, lastRan, nextRun⟩ : Schedule) ∈ (updateSchedule table v.ID now lastRan nextRun).2 := by
  unfold updateSchedule
  simp only [List.mem_map]
  exact ⟨v, hv, by simp [hc]⟩

theorem updateSchedule_snd_of_none {table : List Schedule} {id : String} {now : Int}
    (lastRan nextRun : Int) (h : ∀ r ∈ table, ¬ (r.ID = id ∧ r.NextRun < now)) :
    (updateSchedule table id now lastRan nextRun).2 = table := by
  unfold updateSchedule
  simp only
  conv_rhs => rw [← List.map_id table]
  apply List.map_congr_left
  intro r hr
  simp [h r hr]

theorem updateSchedule_fst_of_none {table : List Schedule} {id : String} {now : Int}
    (lastRan nextRun : Int) (h : ∀ r ∈ table, ¬ (r.ID = id ∧ r.NextRun < now)) :
    (updateSchedule table id now lastRan nextRun).1 = [] := by
  unfold updateSchedule
  simp only [List.map_eq_nil_iff, List.filter_eq_nil_iff]
  intro r hr
  simpa using h r hr

theorem fireSchedule_schedules (globalSchedules : ScheduleRegistry) (db : Database)
    (id : String) (now : Int) (newID : String) (enqueueNow : Int) (slot : Nat) :
    (fireSchedule globalSchedules db id now newID enqueueNow slot).state.schedules =
      (updateSchedule db.schedules id now now
        (Round (now + intervalOf globalSchedules id) (intervalOf globalSchedules id))).2 := by
  unfold fireSchedule
  simp only
  split_ifs
  · cases Enqueue db.jobs newID enqueueNow slot id [] emptyArgsValue [JobPriorityHigh] <;> rfl
  · rfl

theorem enqueue_high_of_fresh (rows : List Job) (newID : String) (now : Int) (slot : Nat)
    (name : String) (hfresh : newID ∉ rows.map Job.ID) :
    Enqueue rows newID now slot name [] emptyArgsValue [JobPriorityHigh] =
      .returned (insertRow slot ⟨newID, name, [], JobPriorityHigh, now⟩ rows) := by
  have hfit : fitsInt4 JobPriorityHigh = true := by decide
  simp only [Enqueue, insertJob, emptyArgsValue, priorityOf, hfit, Bool.not_true,
    Bool.false_eq_true, if_false, if_neg hfresh]

theorem round_half_interval (a b d : Int) (hd : 0 < d) (h : 2 * b ≤ 2 * a + d) :
    b ≤ Round (a + d) d := by
  have := round_near (a + d) d hd
  omega

/-- One order of the race: the first instance updates at `now1` and
  enqueues, the second, at a time `now2` not later than the `next_run` the
  first one wrote, finds nothing to update. -/
theorem fire_then_fire (globalSchedules : ScheduleRegistry) (db : Database) (v : Schedule)
    (now1 now2 : Int) (id1 id2 : String) (e1 e2 : Int) (s1 s2 : Nat)
    (hu : SchedIdsUnique db.schedules) (hv : v ∈ db.schedules)
    (hdue : v.NextRun < now1)
    (hnear : now2 ≤
      Round (now1 + intervalOf globalSchedules v.ID) (intervalOf globalSchedules v.ID))
    (hfresh : id1 ∉ db.jobs.map Job.ID) :
    ∃ db1, fireSchedule globalSchedules db v.ID now1 id1 e1 s1 = .returned db1 ∧
      (updateSchedule db.schedules v.ID now1 now1
        (Round (now1 + intervalOf globalSchedules v.ID) (intervalOf globalSchedules v.ID))).1 =
        [⟨v.ID, now1,
          Round (now1 + intervalOf globalSchedules v.ID) (intervalOf globalSchedules v.ID)⟩] ∧
      db1.jobs = insertRow s1 ⟨id1, v.ID, [], JobPriorityHigh, e1⟩ db.jobs ∧
      (updateSchedule db1.schedules v.ID now2 now2
        (Round (now2 + intervalOf globalSchedules v.ID) (intervalOf globalSchedules v.ID))).1 =
        [] ∧
      fireSchedule globalSchedules db1 v.ID now2 id2 e2 s2 = .returned db1 := by
  have hfst := updateSchedule_fst_of_unique hu hv now1 now1
    (Round (now1 + intervalOf globalSchedules v.ID) (intervalOf globalSchedules v.ID))
  rw [if_pos hdue] at hfst
  let table1 := (updateSchedule db.schedules v.ID now1 now1
    (Round (now1 + intervalOf globalSchedules v.ID) (intervalOf globalSchedules v.ID))).2
  have hu1 : SchedIdsUnique table1 := by
    unfold SchedIdsUnique
    rw [updateSchedule_snd_ids]
    exact hu
  have hmem1 := updateSchedule_snd_mem hv now1 now1
    (Round (now1 + intervalOf globalSchedules v.ID) (intervalOf globalSchedules v.ID)) hdue
  have hnone : ∀ r ∈ table1, ¬ (r.ID = v.ID ∧ r.NextRun < now2) := by
    rintro r hr ⟨hid, hlt⟩
    have := sched_eq_of_id_eq hu1 hr hmem1 hid
    subst this
    simp only at hlt
    omega
  refine ⟨{ db with schedules := table1,
                    jobs := insertRow s1 ⟨id1, v.ID, [], JobPriorityHigh, e1⟩ db.jobs },
    ?_, hfst, rfl, updateSchedule_fst_of_none _ _ hnone, ?_⟩
  · unfold fireSchedule
    simp only [hfst, List.length_singleton, Nat.lt_one_iff, gt_iff_lt, Nat.zero_lt_one,
      if_true, enqueue_high_of_fresh db.jobs id1 e1 s1 v.ID hfresh]
  · unfold fireSchedule
    simp only [updateSchedule_fst_of_none _ _ hnone, updateSchedule_snd_of_none _ _ hnone,
      List.length_nil, gt_iff_lt, lt_self_iff_false, if_false]

/-- The other course of the race: a second update attempted later than the
  `next_run` the first one wrote returns the row again. -/
theorem fire_then_late_update (globalSchedules : ScheduleRegistry) (db : Database)
    (v : Schedule) (now1 now2 : Int)
    (hu : SchedIdsUnique db.schedules) (hv : v ∈ db.schedules) (hdue : v.NextRun < now1)
    (hlate : Round (now1 + intervalOf globalSchedules v.ID) (intervalOf globalSchedules v.ID) <
      now2) :
    (updateSchedule (updateSchedule db.schedules v.ID now1 now1
        (Round (now1 + intervalOf globalSchedules v.ID) (intervalOf globalSchedules v.ID))).2
      v.ID now2 now2
        (Round (now2 + intervalOf globalSchedules v.ID) (intervalOf globalSchedules v.ID))).1 =
      [⟨v.ID, now2,
        Round (now2 + intervalOf globalSchedules v.ID) (intervalOf globalSchedules v.ID)⟩] := by
  have hu1 : SchedIdsUnique (updateSchedule db.schedules v.ID now1 now1
      (Round (now1 + intervalOf globalSchedules v.ID) (intervalOf globalSchedules v.ID))).2 := by
    unfold SchedIdsUnique
    rw [updateSchedule_snd_ids]
    exact hu
  have hmem1 := updateSchedule_snd_mem hv now1 now1
    (Round (now1 + intervalOf globalSchedules v.ID) (intervalOf globalSchedules v.ID)) hdue
  have h := updateSchedule_fst_of_unique hu1 hmem1 now2 now2
    (Round (now2 + intervalOf globalSchedules v.ID) (intervalOf globalSchedules v.ID))
  rw [if_pos hlate] at h
  exact h

/-! ## Lemmas on startup reconciliation -/

theorem deleteOldSchedules_eq (globalSchedules : ScheduleRegistry) :
    ∀ (snapshot table : List Schedule),
      deleteOldSchedules globalSchedules snapshot table =
        (table.filter (fun r => decide (r.ID ∉
            (snapshot.filter (fun v => decide (intervalOf globalSchedules v.ID = 0))).map
              Schedule.ID)),
          (snapshot.filter (fun v => decide (intervalOf globalSchedules v.ID ≠ 0))).map
            Schedule.ID)
  | [], table => by simp [deleteOldSchedules]
  | v :: vs, table => by
    unfold deleteOldSchedules
    by_cases h0 : intervalOf globalSchedules v.ID = 0
    · rw [if_pos h0, deleteOldSchedules_eq globalSchedules vs]
      have hs : (v :: vs).filter (fun v => decide (intervalOf globalSchedules v.ID = 0)) =
          v :: vs.filter (fun v => decide (intervalOf globalSchedules v.ID = 0)) := by
        simp [List.filter_cons, h0]
      have hkp : (v :: vs).filter (fun v => decide (intervalOf globalSchedules v.ID ≠ 0)) =
          vs.filter (fun v => decide (intervalOf globalSchedules v.ID ≠ 0)) := by
        simp [List.filter_cons, h0]
      rw [hs, hkp, List.filter_filter]
      congr 1
      apply List.filter_congr
      intro r _
      rw [Bool.eq_iff_iff]
      simp only [Bool.and_eq_true, decide_eq_true_eq, List.map_cons, List.mem_cons, not_or]
      tauto
    · rw [if_neg h0, deleteOldSchedules_eq globalSchedules vs]
      simp [List.filter_cons, h0]

theorem deleteOldSchedules_self (globalSchedules : ScheduleRegistry) (table : List Schedule) :
    deleteOldSchedules globalSchedules table table =
      (table.filter (fun r => decide (intervalOf globalSchedules r.ID ≠ 0)),
        (table.filter (fun r => decide (intervalOf globalSchedules r.ID ≠ 0))).map
          Schedule.ID) := by
  rw [deleteOldSchedules_eq]
  congr 1
  apply List.filter_congr
  intro r hr
  by_cases h0 : intervalOf globalSchedules r.ID = 0
  · have : r.ID ∈ (table.filter
        (fun v => decide (intervalOf globalSchedules v.ID = 0))).map Schedule.ID :=
      List.mem_map_of_mem Schedule.ID (List.mem_filter.2 ⟨hr, by simpa using h0⟩)
    simp [h0, this]
  · have : r.ID ∉ (table.filter
        (fun v => decide (intervalOf globalSchedules v.ID = 0))).map Schedule.ID := by
      intro hm
      obtain ⟨x, hx, hid⟩ := List.mem_map.1 hm
      have hx0 : intervalOf globalSchedules x.ID = 0 := by
        simpa using (List.mem_filter.1 hx).2
      exact h0 (hid ▸ hx0)
    simp [h0, this]

theorem createNewSchedules_eq (existing : List String) (now : Int) :
    ∀ (entries : List (String × Int)) (table : List Schedule),
      (entries.map Prod.fst).Nodup →
      (∀ e ∈ entries, e.1 ∉ existing → e.1 ∉ table.map Schedule.ID) →
      createNewSchedules existing now entries table =
        .returned (table ++ (entries.filter (fun e => decide (e.1 ∉ existing))).map
          (fun e => newSchedule e.1 e.2 now))
  | [], table, _, _ => by simp [createNewSchedules]
  | e :: rest, table, hnd, hfree => by
    have hnd2 : e.1 ∉ rest.map Prod.fst ∧ (rest.map Prod.fst).Nodup := by
      simpa using hnd
    unfold createNewSchedules
    by_cases he : e.1 ∈ existing
    · rw [if_pos he, createNewSchedules_eq existing now rest table hnd2.2
        (fun x hx => hfree x (List.mem_cons_of_mem _ hx))]
      simp [List.filter_cons, he]
    · have hnew : (newSchedule e.1 e.2 now).ID ∉ table.map Schedule.ID :=
        hfree e (List.mem_cons_self _ _) he
      rw [if_neg he]
      simp only [insertSchedule, if_neg hnew]
      rw [createNewSchedules_eq existing now rest (table ++ [newSchedule e.1 e.2 now]) hnd2.2]
      · simp [List.filter_cons, he]
      · intro x hx hxe
        have h1 := hfree x (List.mem_cons_of_mem _ hx) hxe
        have h2 : x.1 ≠ e.1 := fun h => hnd2.1 (h ▸ List.mem_map_of_mem Prod.fst hx)
        simp only [List.map_append, List.map_cons, List.map_nil, List.mem_append,
          List.mem_singleton, not_or]
        exact ⟨h1, h2⟩

theorem reconcile_eq (globalSchedules : ScheduleRegistry) (table : List Schedule) (now : Int)
    (hk : KeysUnique globalSchedules) :
    reconcile globalSchedules table now =
      .returned (table.filter (fun r => decide (intervalOf globalSchedules r.ID ≠ 0)) ++
        (globalSchedules.filter (fun e => decide (e.1 ∉
          (table.filter (fun r => decide (intervalOf globalSchedules r.ID ≠ 0))).map
            Schedule.ID))).map (fun e => newSchedule e.1 e.2 now)) := by
  unfold reconcile
  rw [deleteOldSchedules_self]
  exact createNewSchedules_eq _ now globalSchedules _ hk (fun _ _ h => h)

theorem intervalOf_of_mem {globalSchedules : ScheduleRegistry} (hk : KeysUnique globalSchedules)
    {e : String × Int} (he : e ∈ globalSchedules) : intervalOf globalSchedules e.1 = e.2 := by
  induction globalSchedules with
  | nil => simp at he
  | cons x m ih =>
    obtain ⟨k1, v1⟩ := x
    have hnd : k1 ∉ m.map Prod.fst ∧ KeysUnique m := by simpa [KeysUnique] using hk
    rcases List.mem_cons.1 he with h | h
    · subst h
      simp [intervalOf]
    · have hne : (e.1 == k1) = false := by
        have : e.1 ≠ k1 := fun hh => hnd.1 (hh ▸ List.mem_map_of_mem Prod.fst h)
        simpa using this
      have := ih hnd.2 h
      unfold intervalOf at this ⊢
      rw [List.lookup_cons, hne]
      exact this

theorem intervalOf_eq_zero_of_not_mem (globalSchedules : ScheduleRegistry) (name : String)
    (h : name ∉ globalSchedules.map Prod.fst) : intervalOf globalSchedules name = 0 := by
  simp [intervalOf, lookup_eq_none_of_not_mem globalSchedules name h]

theorem intervalOf_ne_zero_iff {globalSchedules : ScheduleRegistry}
    (hk : KeysUnique globalSchedules) (hnz : ∀ e ∈ globalSchedules, e.2 ≠ 0) (name : String) :
    intervalOf globalSchedules name ≠ 0 ↔ name ∈ globalSchedules.map Prod.fst := by
  constructor
  · intro h
    by_contra hn
    exact h (intervalOf_eq_zero_of_not_mem globalSchedules name hn)
  · intro h
    obtain ⟨e, he, rfl⟩ := List.mem_map.1 h
    rw [intervalOf_of_mem hk he]
    exact hnz e he

/-! ## The claims on the scheduler -/

/-- C13, as stated, fails: with interval 60 and a row whose `next_run` is
  780, two instances read the row as due at time 781. The first updates at
  781, gets the row back, writes `next_run = 840` and enqueues a job; the
  second, which reaches its update at 841, gets the row back too (840 < 841)
  and enqueues a second job. -/
theorem schedule_fires_twice_counterexample :
    (⟨"x", 0, 780⟩ : Schedule) ∈ selectDueSchedules [⟨"x", 0, 780⟩] 781 ∧
    (updateSchedule [⟨"x", 0, 780⟩] "x" 781 781 (Round (781 + 60) 60)).1 = [⟨"x", 781, 840⟩] ∧
    fireSchedule [("x", 60)] ⟨[], [⟨"x", 0, 780⟩], []⟩ "x" 781 "j1" 781 0 =
      .returned ⟨[⟨"j1", "x", [], JobPriorityHigh, 781⟩], [⟨"x", 781, 840⟩], []⟩ ∧
    (updateSchedule [⟨"x", 781, 840⟩] "x" 841 841 (Round (841 + 60) 60)).1 = [⟨"x", 841, 900⟩] ∧
    fireSchedule [("x", 60)]
        ⟨[⟨"j1", "x", [], JobPriorityHigh, 781⟩], [⟨"x", 781, 840⟩], []⟩ "x" 841 "j2" 841 1 =
      .returned ⟨[⟨"j1", "x", [], JobPriorityHigh, 781⟩, ⟨"j2", "x", [], JobPriorityHigh, 841⟩],
        [⟨"x", 841, 900⟩], []⟩ := by
  decide

/-- C13, amended: for a schedule whose row both instances read as due at
  time `t`, when the two attempt the conditional update one after the other,
  in either order, at times from `t` on, the second not later than the
  `next_run` the first one writes, the first update returns the row and its
  instance enqueues one job named after the schedule, at High priority and
  with `created` the time of the enqueue: the queue is the old one with that
  one row more. The second update returns no row and its instance leaves the
  store as it is. For a positive interval the second update is in time
  whenever it comes no more than half an interval after the first, so also
  when the two are made at the same time. The job id is one the queue does
  not hold. -/
theorem schedule_fires_once (globalSchedules : ScheduleRegistry) (db : Database)
    (v : Schedule) (t nowA nowB : Int) (idA idB : String) (eA eB : Int) (sA sB : Nat)
    (hu : SchedIdsUnique db.schedules) (hobs : v ∈ selectDueSchedules db.schedules t)
    (htA : t ≤ nowA) (htB : t ≤ nowB)
    (hfreshA : idA ∉ db.jobs.map Job.ID) (hfreshB : idB ∉ db.jobs.map Job.ID) :
    (nowB ≤ Round (nowA + intervalOf globalSchedules v.ID) (intervalOf globalSchedules v.ID) →
      ∃ db1, fireSchedule globalSchedules db v.ID nowA idA eA sA = .returned db1 ∧
      (updateSchedule db.schedules v.ID nowA nowA
        (Round (nowA + intervalOf globalSchedules v.ID) (intervalOf globalSchedules v.ID))).1 =
        [⟨v.ID, nowA,
          Round (nowA + intervalOf globalSchedules v.ID) (intervalOf globalSchedules v.ID)⟩] ∧
      db1.jobs = insertRow sA ⟨idA, v.ID, [], JobPriorityHigh, eA⟩ db.jobs ∧
      db1.jobs.Perm (⟨idA, v.ID, [], JobPriorityHigh, eA⟩ :: db.jobs) ∧
      db.jobs.Sublist db1.jobs ∧
      (updateSchedule db1.schedules v.ID nowB nowB
        (Round (nowB + intervalOf globalSchedules v.ID) (intervalOf globalSchedules v.ID))).1 =
        [] ∧
      fireSchedule globalSchedules db1 v.ID nowB idB eB sB = .returned db1) ∧
    (nowA ≤ Round (nowB + intervalOf globalSchedules v.ID) (intervalOf globalSchedules v.ID) →
      ∃ db1, fireSchedule globalSchedules db v.ID nowB idB eB sB = .returned db1 ∧
      (updateSchedule db.schedules v.ID nowB nowB
        (Round (nowB + intervalOf globalSchedules v.ID) (intervalOf globalSchedules v.ID))).1 =
        [⟨v.ID, nowB,
          Round (nowB + intervalOf globalSchedules v.ID) (intervalOf globalSchedules v.ID)⟩] ∧
      db1.jobs = insertRow sB ⟨idB, v.ID, [], JobPriorityHigh, eB⟩ db.jobs ∧
      db1.jobs.Perm (⟨idB, v.ID, [], JobPriorityHigh, eB⟩ :: db.jobs) ∧
      db.jobs.Sublist db1.jobs ∧
      (updateSchedule db1.schedules v.ID nowA nowA
        (Round (nowA + intervalOf globalSchedules v.ID) (intervalOf globalSchedules v.ID))).1 =
        [] ∧
      fireSchedule globalSchedules db1 v.ID nowA idA eA sA = .returned db1) ∧
    (0 < intervalOf globalSchedules v.ID →
      (2 * nowB ≤ 2 * nowA + intervalOf globalSchedules v.ID →
        nowB ≤ Round (nowA + intervalOf globalSchedules v.ID) (intervalOf globalSchedules v.ID)) ∧
      (2 * nowA ≤ 2 * nowB + intervalOf globalSchedules v.ID →
        nowA ≤ Round (nowB + intervalOf globalSchedules v.ID) (intervalOf globalSchedules v.ID))) := by
  have hv : v ∈ db.schedules := List.mem_of_mem_filter hobs
  have hdue : v.NextRun < t := of_decide_eq_true (List.mem_filter.1 hobs).2
  refine ⟨fun hAB => ?_, fun hBA => ?_, ?_⟩
  · obtain ⟨dbA, hA1, hA2, hA3, hA4, hA5⟩ :=
      fire_then_fire globalSchedules db v nowA nowB idA idB eA eB sA sB hu hv
        (lt_of_lt_of_le hdue htA) hAB hfreshA
    refine ⟨dbA, hA1, hA2, hA3, ?_, ?_, hA4, hA5⟩
    · rw [hA3]
      exact insertRow_perm _ _ _
    · rw [hA3]
      exact insertRow_sublist _ _ _
  · obtain ⟨dbB, hB1, hB2, hB3, hB4, hB5⟩ :=
      fire_then_fire globalSchedules db v nowB nowA idB idA eB eA sB sA hu hv
        (lt_of_lt_of_le hdue htB) hBA hfreshB
    refine ⟨dbB, hB1, hB2, hB3, ?_, ?_, hB4, hB5⟩
    · rw [hB3]
      exact insertRow_perm _ _ _
    · rw [hB3]
      exact insertRow_sublist _ _ _
  · intro hd
    exact ⟨round_half_interval nowA nowB _ hd, round_half_interval nowB nowA _ hd⟩

theorem schedule_fires_once_witness :
    ∃ db1, fireSchedule exSchedules exDb (Schedule.ID ⟨"cleanup", 3600, 7200⟩) 7201 "A" 7201 0 =
        .returned db1 ∧
      (updateSchedule exDb.schedules (Schedule.ID ⟨"cleanup", 3600, 7200⟩) 7201 7201
        (Round (7201 + intervalOf exSchedules (Schedule.ID ⟨"cleanup", 3600, 7200⟩))
          (intervalOf exSchedules (Schedule.ID ⟨"cleanup", 3600, 7200⟩)))).1 =
        [⟨Schedule.ID ⟨"cleanup", 3600, 7200⟩, 7201,
          Round (7201 + intervalOf exSchedules (Schedule.ID ⟨"cleanup", 3600, 7200⟩))
            (intervalOf exSchedules (Schedule.ID ⟨"cleanup", 3600, 7200⟩))⟩] ∧
      db1.jobs = insertRow 0
        ⟨"A", Schedule.ID ⟨"cleanup", 3600, 7200⟩, [], JobPriorityHigh, 7201⟩ exDb.jobs ∧
      db1.jobs.Perm
        (⟨"A", Schedule.ID ⟨"cleanup", 3600, 7200⟩, [], JobPriorityHigh, 7201⟩ :: exDb.jobs) ∧
      exDb.jobs.Sublist db1.jobs ∧
      (updateSchedule db1.schedules (Schedule.ID ⟨"cleanup", 3600, 7200⟩) 7300 7300
        (Round (7300 + intervalOf exSchedules (Schedule.ID ⟨"cleanup", 3600, 7200⟩))
          (intervalOf exSchedules (Schedule.ID ⟨"cleanup", 3600, 7200⟩)))).1 = [] ∧
      fireSchedule exSchedules db1 (Schedule.ID ⟨"cleanup", 3600, 7200⟩) 7300 "B" 7300 0 =
        .returned db1 :=
  (schedule_fires_once exSchedules exDb ⟨"cleanup", 3600, 7200⟩ 7201 7201 7300 "A" "B"
    7201 7300 0 0
    (by decide) (by decide) (by decide) (by decide) (by decide) (by decide)).1 (by decide)

/-- C14, as stated, fails: a schedule registered with a negative interval
  has a due row with `next_run = 99`; the update at time 100 takes effect and
  writes `next_run = -3500`, earlier than the value it replaces. -/
theorem next_run_regress_counterexample :
    RegisterSchedule [] "x" (-3600) = .returned [("x", -3600)] ∧
    fireSchedule [("x", -3600)] ⟨[], [⟨"x", 0, 99⟩], []⟩ "x" 100 "j" 100 0 =
      .returned ⟨[⟨"j", "x", [], JobPriorityHigh, 100⟩], [⟨"x", 100, -3500⟩], []⟩ ∧
    (-3500 : Int) < 99 := by
  decide

/-- C14, amended: for a schedule whose interval is not negative, a step of
  the scheduler never moves `next_run` back: row by row, the update that
  takes effect writes a `next_run` strictly later than the one it replaces,
  every other row is left as it is, and an update that returns no row leaves
  the table unchanged. -/
theorem next_run_never_regresses (globalSchedules : ScheduleRegistry) (db : Database)
    (id : String) (now : Int) (newID : String) (enqueueNow : Int) (slot : Nat)
    (h : 0 ≤ intervalOf globalSchedules id) :
    List.Forall₂
      (fun old new => new.ID = old.ID ∧
        ((old.ID = id ∧ old.NextRun < now) → old.NextRun < new.NextRun) ∧
        (¬ (old.ID = id ∧ old.NextRun < now) → new = old))
      db.schedules
      (fireSchedule globalSchedules db id now newID enqueueNow slot).state.schedules ∧
    ((updateSchedule db.schedules id now now
        (Round (now + intervalOf globalSchedules id) (intervalOf globalSchedules id))).1 = [] →
      (fireSchedule globalSchedules db id now newID enqueueNow slot).state.schedules =
        db.schedules) := by
  rw [fireSchedule_schedules]
  constructor
  · unfold updateSchedule
    simp only
    rw [List.forall₂_map_right_iff, List.forall₂_same]
    intro r _
    by_cases hc : r.ID = id ∧ r.NextRun < now
    · rw [if_pos hc]
      refine ⟨rfl, fun _ => ?_, fun hn => absurd hc hn⟩
      have := round_after now (intervalOf globalSchedules id) h
      simp only
      omega
    · rw [if_neg hc]
      exact ⟨rfl, fun hp => absurd hp hc, fun _ => rfl⟩
  · intro hnil
    apply updateSchedule_snd_of_none
    intro r hr hc
    unfold updateSchedule at hnil
    simp only [List.map_eq_nil_iff, List.filter_eq_nil_iff] at hnil
    exact hnil r hr (by simpa using hc)

theorem next_run_never_regresses_witness :
    (fireSchedule exSchedules exDb "cleanup" 7000 "A" 7000 0).state.schedules =
      exDb.schedules :=
  (next_run_never_regresses exSchedules exDb "cleanup" 7000 "A" 7000 0 (by decide)).2
    (by decide)

/-- C15: for a registered schedule with a positive interval, every
  `next_run` that the scheduler writes for it, in the row startup inserts
  and in the row the conditional update rewrites, is
  `Round(now + interval)`, an exact multiple of the interval; it is
  `now + interval` itself only when that is a multiple. -/
theorem next_run_on_boundary (globalSchedules : ScheduleRegistry) (id : String) (now : Int)
    (hk : KeysUnique globalSchedules) (hd : 0 < intervalOf globalSchedules id) :
    (∀ table : List Schedule, ∃ table1, reconcile globalSchedules table now = .returned table1 ∧
      ∀ r ∈ table1, r.ID = id → r ∈ table ∨
        (r.NextRun =
            Round (now + intervalOf globalSchedules id) (intervalOf globalSchedules id) ∧
          intervalOf globalSchedules id ∣ r.NextRun)) ∧
    (∀ (db : Database) (newID : String) (enqueueNow : Int) (slot : Nat),
      ∀ r ∈ (fireSchedule globalSchedules db id now newID enqueueNow slot).state.schedules,
        r ∈ db.schedules ∨
        (r.NextRun =
            Round (now + intervalOf globalSchedules id) (intervalOf globalSchedules id) ∧
          intervalOf globalSchedules id ∣ r.NextRun)) ∧
    (Round (now + intervalOf globalSchedules id) (intervalOf globalSchedules id) =
        now + intervalOf globalSchedules id ↔
      intervalOf globalSchedules id ∣ now + intervalOf globalSchedules id) := by
  have hdvd := round_dvd (now + intervalOf globalSchedules id) (intervalOf globalSchedules id) hd
  refine ⟨?_, ?_, round_eq_self_iff _ _ hd⟩
  · intro table
    refine ⟨_, reconcile_eq globalSchedules table now hk, ?_⟩
    intro r hr hid
    rcases List.mem_append.1 hr with h1 | h1
    · exact Or.inl (List.mem_of_mem_filter h1)
    · right
      obtain ⟨e, he, rfl⟩ := List.mem_map.1 h1
      have hi : intervalOf globalSchedules e.1 = e.2 :=
        intervalOf_of_mem hk (List.mem_of_mem_filter he)
      have hid2 : e.1 = id := hid
      subst hid2
      simp only [newSchedule]
      rw [hi] at hdvd ⊢
      exact ⟨rfl, hdvd⟩
  · intro db newID enqueueNow slot r hr
    rw [fireSchedule_schedules] at hr
    unfold updateSchedule at hr
    simp only [List.mem_map] at hr
    obtain ⟨x, hx, rfl⟩ := hr
    by_cases hc : x.ID = id ∧ x.NextRun < now
    · right
      rw [if_pos hc]
      exact ⟨rfl, hdvd⟩
    · left
      rw [if_neg hc]
      exact hx

theorem next_run_on_boundary_witness :
    Round (7201 + intervalOf exSchedules "cleanup") (intervalOf exSchedules "cleanup") =
        7201 + intervalOf exSchedules "cleanup" ↔
      intervalOf exSchedules "cleanup" ∣ 7201 + intervalOf exSchedules "cleanup" :=
  (next_run_on_boundary exSchedules "cleanup" 7201 (by decide) (by decide)).2.2

/-- C16, as stated, fails: with interval 60 and stored `next_run = 780`
  (13:00 in minutes) an occurrence that fires at 811 (13:31) gets the new
  `next_run = 900` (15:00); the boundary 840 (14:00) is skipped. -/
theorem late_fire_counterexample :
    (60 : Int) ∣ 780 ∧ (780 : Int) < 811 ∧ (811 : Int) < 780 + 60 ∧
    fireSchedule [("x", 60)] ⟨[], [⟨"x", 0, 780⟩], []⟩ "x" 811 "j" 811 0 =
      .returned ⟨[⟨"j", "x", [], JobPriorityHigh, 811⟩], [⟨"x", 811, 900⟩], []⟩ := by
  decide

/-- C16, amended: for a positive interval and a stored `next_run` B on an
  interval boundary, an occurrence that fires at `now` with
  `B < now < B + interval` gets the new `next_run = B + interval` when it is
  less than half an interval late (13:02 gives 14:00), and
  `B + 2 * interval` when it is half an interval late or more. -/
theorem late_fire_next_boundary (globalSchedules : ScheduleRegistry) (db : Database)
    (v : Schedule) (now : Int) (newID : String) (enqueueNow : Int) (slot : Nat)
    (hu : SchedIdsUnique db.schedules) (hv : v ∈ db.schedules)
    (hd : 0 < intervalOf globalSchedules v.ID)
    (hB : intervalOf globalSchedules v.ID ∣ v.NextRun)
    (h1 : v.NextRun < now) (h2 : now < v.NextRun + intervalOf globalSchedules v.ID) :
    (updateSchedule db.schedules v.ID now now
      (Round (now + intervalOf globalSchedules v.ID) (intervalOf globalSchedules v.ID))).1 =
      [⟨v.ID, now, if 2 * (now - v.NextRun) < intervalOf globalSchedules v.ID
        then v.NextRun + intervalOf globalSchedules v.ID
        else v.NextRun + 2 * intervalOf globalSchedules v.ID⟩] ∧
    (⟨v.ID, now, if 2 * (now - v.NextRun) < intervalOf globalSchedules v.ID
        then v.NextRun + intervalOf globalSchedules v.ID
        else v.NextRun + 2 * intervalOf globalSchedules v.ID⟩ : Schedule) ∈
      (fireSchedule globalSchedules db v.ID now newID enqueueNow slot).state.schedules ∧
    (2 * (now - v.NextRun) < intervalOf globalSchedules v.ID →
      Round (now + intervalOf globalSchedules v.ID) (intervalOf globalSchedules v.ID) =
        v.NextRun + intervalOf globalSchedules v.ID) := by
  have hr := round_from_boundary v.NextRun now (intervalOf globalSchedules v.ID) hd hB
    (le_of_lt h1) h2
  refine ⟨?_, ?_, ?_⟩
  · rw [updateSchedule_fst_of_unique hu hv, if_pos h1, hr]
  · rw [fireSchedule_schedules, ← hr]
    exact updateSchedule_snd_mem hv now now _ h1
  · intro hlt
    rw [hr, if_pos hlt]

theorem late_fire_next_boundary_witness :
    Round (7202 + intervalOf exSchedules (Schedule.ID ⟨"cleanup", 3600, 7200⟩))
        (intervalOf exSchedules (Schedule.ID ⟨"cleanup", 3600, 7200⟩)) =
      Schedule.NextRun ⟨"cleanup", 3600, 7200⟩ +
        intervalOf exSchedules (Schedule.ID ⟨"cleanup", 3600, 7200⟩) :=
  (late_fire_next_boundary exSchedules exDb ⟨"cleanup", 3600, 7200⟩ 7202 "A" 7202 0
    (by decide) (by decide) (by decide) (by decide) (by decide) (by decide)).2.2 (by decide)

/-- C17, as stated, fails: for a schedule registered with interval 0 the
  row that exists at startup is deleted and inserted anew, so its `last_ran`
  and `next_run` are not preserved. -/
theorem reconcile_counterexample :
    RegisterSchedule [] "x" 0 = .returned [("x", 0)] ∧
    reconcile [("x", 0)] [⟨"x", 5, 7⟩] 100 = .returned [⟨"x", 100, 100⟩] := by
  decide

/-- C17, amended: for a registry none of whose intervals is 0, startup
  reconciliation returns, and afterwards the stored ids are exactly the
  registered names, each once: the rows of unregistered names are gone, the
  rows that existed for registered names are kept as they were, and every
  registered name without a row has the one row startup builds for it. -/
theorem reconcile_matches_registry (globalSchedules : ScheduleRegistry)
    (table : List Schedule) (now : Int) (hk : KeysUnique globalSchedules)
    (hu : SchedIdsUnique table) (hnz : ∀ e ∈ globalSchedules, e.2 ≠ 0) :
    ∃ table1, reconcile globalSchedules table now = .returned table1 ∧
      (∀ id, id ∈ table1.map Schedule.ID ↔ id ∈ globalSchedules.map Prod.fst) ∧
      SchedIdsUnique table1 ∧
      (∀ r ∈ table, r.ID ∉ globalSchedules.map Prod.fst → r.ID ∉ table1.map Schedule.ID) ∧
      (∀ r ∈ table, r.ID ∈ globalSchedules.map Prod.fst → r ∈ table1) ∧
      (∀ e ∈ globalSchedules, e.1 ∉ table.map Schedule.ID →
        newSchedule e.1 e.2 now ∈ table1) ∧
      (∀ r ∈ table1, r ∈ table ∨
        (r.ID ∉ table.map Schedule.ID ∧ ∃ e ∈ globalSchedules, r = newSchedule e.1 e.2 now)) := by
  refine ⟨_, reconcile_eq globalSchedules table now hk, ?_⟩
  have hreg := intervalOf_ne_zero_iff hk hnz
  have hkeep : ∀ r, r ∈ table.filter (fun r => decide (intervalOf globalSchedules r.ID ≠ 0)) ↔
      r ∈ table ∧ r.ID ∈ globalSchedules.map Prod.fst := by
    intro r
    rw [List.mem_filter, decide_eq_true_eq, hreg]
  have hexist : ∀ id, id ∈ (table.filter
      (fun r => decide (intervalOf globalSchedules r.ID ≠ 0))).map Schedule.ID ↔
      id ∈ table.map Schedule.ID ∧ id ∈ globalSchedules.map Prod.fst := by
    intro id
    constructor
    · intro h
      obtain ⟨r, hr, rfl⟩ := List.mem_map.1 h
      exact ⟨List.mem_map_of_mem Schedule.ID ((hkeep r).1 hr).1, ((hkeep r).1 hr).2⟩
    · rintro ⟨h1, hin⟩
      obtain ⟨r, hr, rfl⟩ := List.mem_map.1 h1
      exact List.mem_map_of_mem Schedule.ID ((hkeep r).2 ⟨hr, hin⟩)
  have hnew : ∀ r, r ∈ (globalSchedules.filter (fun e => decide (e.1 ∉
      (table.filter (fun r => decide (intervalOf globalSchedules r.ID ≠ 0))).map
        Schedule.ID))).map (fun e => newSchedule e.1 e.2 now) ↔
      ∃ e ∈ globalSchedules, e.1 ∉ table.map Schedule.ID ∧ r = newSchedule e.1 e.2 now := by
    intro r
    constructor
    · intro h
      obtain ⟨e, he, rfl⟩ := List.mem_map.1 h
      have he2 := List.mem_filter.1 he
      have hne := of_decide_eq_true he2.2
      exact ⟨e, he2.1,
        fun hin => hne ((hexist e.1).2 ⟨hin, List.mem_map_of_mem Prod.fst he2.1⟩), rfl⟩
    · rintro ⟨e, he, hne, rfl⟩
      refine List.mem_map.2 ⟨e, List.mem_filter.2 ⟨he, ?_⟩, rfl⟩
      rw [decide_eq_true_eq]
      exact fun hin => hne ((hexist e.1).1 hin).1
  have hids : ∀ id, id ∈ (table.filter (fun r => decide (intervalOf globalSchedules r.ID ≠ 0)) ++
      (globalSchedules.filter (fun e => decide (e.1 ∉
        (table.filter (fun r => decide (intervalOf globalSchedules r.ID ≠ 0))).map
          Schedule.ID))).map (fun e => newSchedule e.1 e.2 now)).map Schedule.ID ↔
      id ∈ globalSchedules.map Prod.fst := by
    intro id
    rw [List.map_append, List.mem_append, hexist]
    constructor
    · rintro (h | h)
      · exact h.2
      · obtain ⟨r, hr, rfl⟩ := List.mem_map.1 h
        obtain ⟨e, he, _, rfl⟩ := (hnew r).1 hr
        exact List.mem_map_of_mem Prod.fst he
    · intro h
      by_cases hin : id ∈ table.map Schedule.ID
      · exact Or.inl ⟨hin, h⟩
      · right
        obtain ⟨e, he, rfl⟩ := List.mem_map.1 h
        exact List.mem_map.2 ⟨newSchedule e.1 e.2 now, (hnew _).2 ⟨e, he, hin, rfl⟩, rfl⟩
  refine ⟨hids, ?_, ?_, ?_, ?_, ?_⟩
  · unfold SchedIdsUnique
    rw [List.map_append, List.nodup_append]
    refine ⟨List.Nodup.sublist ((List.filter_sublist _).map Schedule.ID) hu, ?_, ?_⟩
    · rw [List.map_map]
      have hf : (Schedule.ID ∘ fun e : String × Int => newSchedule e.1 e.2 now) = Prod.fst := by
        funext e
        rfl
      rw [hf]
      exact List.Nodup.sublist ((List.filter_sublist _).map Prod.fst) hk
    · intro id h1 h2
      obtain ⟨r, hr, rfl⟩ := List.mem_map.1 h2
      obtain ⟨e, _, hne, rfl⟩ := (hnew r).1 hr
      exact hne ((hexist _).1 h1).1
  · intro r _ hnr hin
    exact hnr ((hids r.ID).1 hin)
  · intro r hr hin
    exact List.mem_append_left _ ((hkeep r).2 ⟨hr, hin⟩)
  · intro e he hne
    exact List.mem_append_right _ ((hnew _).2 ⟨e, he, hne, rfl⟩)
  · intro r hr
    rcases List.mem_append.1 hr with h | h
    · exact Or.inl ((hkeep r).1 h).1
    · right
      obtain ⟨e, he, hne, rfl⟩ := (hnew r).1 h
      exact ⟨hne, e, he, rfl⟩

theorem reconcile_matches_registry_witness :
    ∃ table1, reconcile exSchedules [⟨"cleanup", 5, 7⟩, ⟨"old", 1, 2⟩] 100 = .returned table1 ∧
      (∀ id, id ∈ table1.map Schedule.ID ↔ id ∈ exSchedules.map Prod.fst) :=
  let ⟨t, h1, h2, _⟩ := reconcile_matches_registry exSchedules
    [⟨"cleanup", 5, 7⟩, ⟨"old", 1, 2⟩] 100 (by decide) (by decide) (by decide)
  ⟨t, h1, h2⟩

/-- C18, as stated, fails: at startup time 782 (13:02 in minutes) a missing
  schedule with interval 60 gets `next_run = 840` (14:00), which is earlier
  than `now + interval = 842`; the smallest multiple of 60 not earlier than
  842 is 900. -/
theorem reconcile_next_run_counterexample :
    reconcile [("cleanup", 60)] [] 782 = .returned [⟨"cleanup", 782, 840⟩] ∧
    (840 : Int) < 782 + 60 := by
  decide

/-- C18, amended: for a registered schedule with a positive interval that
  has no row, the row startup inserts has `next_run` equal to
  `now + interval` rounded to the nearest multiple of the interval, a
  halfway value rounded up: it is a multiple of the interval, less than half
  an interval before or at most half an interval after `now + interval`, and
  the only multiple that is. -/
theorem reconcile_next_run_nearest (globalSchedules : ScheduleRegistry)
    (table : List Schedule) (now : Int) (e : String × Int) (hk : KeysUnique globalSchedules)
    (he : e ∈ globalSchedules) (hmiss : e.1 ∉ table.map Schedule.ID) (hd : 0 < e.2) :
    ∃ table1, reconcile globalSchedules table now = .returned table1 ∧
      (⟨e.1, now, Round (now + e.2) e.2⟩ : Schedule) ∈ table1 ∧
      e.2 ∣ Round (now + e.2) e.2 ∧
      2 * (now + e.2 - Round (now + e.2) e.2) < e.2 ∧
      2 * (Round (now + e.2) e.2 - (now + e.2)) ≤ e.2 ∧
      (∀ m : Int, e.2 ∣ m → 2 * (now + e.2 - m) < e.2 → 2 * (m - (now + e.2)) ≤ e.2 →
        m = Round (now + e.2) e.2) := by
  have hnear := round_near (now + e.2) e.2 hd
  have hdvd := round_dvd (now + e.2) e.2 hd
  refine ⟨_, reconcile_eq globalSchedules table now hk, ?_, hdvd, hnear.1, hnear.2, ?_⟩
  · apply List.mem_append_right
    refine List.mem_map.2 ⟨e, List.mem_filter.2 ⟨he, ?_⟩, rfl⟩
    rw [decide_eq_true_eq]
    intro hin
    obtain ⟨r, hr, hid⟩ := List.mem_map.1 hin
    exact hmiss (hid ▸ List.mem_map_of_mem Schedule.ID (List.mem_of_mem_filter hr))
  · intro m hm h1 h2
    obtain ⟨a, ha⟩ := hm
    obtain ⟨b, hb⟩ := hdvd
    have hab : a = b := by
      by_contra hne
      rcases lt_or_gt_of_ne hne with hlt | hgt
      · have : e.2 * (a + 1) ≤ e.2 * b := Int.mul_le_mul_of_nonneg_left (by omega) (by omega)
        rw [mul_add, mul_one] at this
        omega
      · have : e.2 * (b + 1) ≤ e.2 * a := Int.mul_le_mul_of_nonneg_left (by omega) (by omega)
        rw [mul_add, mul_one] at this
        omega
    rw [ha, hb, hab]

theorem reconcile_next_run_nearest_witness :
    ∃ table1, reconcile exSchedules [] 100 = .returned table1 ∧
      (⟨"cleanup", 100, Round (100 + 3600) 3600⟩ : Schedule) ∈ table1 :=
  let ⟨t, h1, h2, _⟩ := reconcile_next_run_nearest exSchedules [] 100 ("cleanup", 3600)
    (by decide) (by decide) (by decide) (by decide)
  ⟨t, h1, h2⟩

/-! ## The claims on the cache -/

theorem find?_eq_some_of_unique {α : Type} (p : α → Bool) (l : List α) (x : α)
    (hall : ∀ e ∈ l, p e = true → e = x) (hex : ∃ e ∈ l, p e = true) :
    l.find? p = some x := by
  cases hf : l.find? p with
  | none =>
    obtain ⟨e, he, hp⟩ := hex
    exact absurd hp (List.find?_eq_none.1 hf e he)
  | some y =>
    rw [hall y (List.mem_of_find?_eq_some hf) (List.find?_some hf)]

theorem upsertCache_of_id {cache : List cacheEntry} {row e : cacheEntry}
    (he : e ∈ upsertCache cache row) (hid : e.ID = row.ID) : e = row := by
  unfold upsertCache at he
  split_ifs at he with hin
  · obtain ⟨x, _, rfl⟩ := List.mem_map.1 he
    by_cases hx : x.ID = row.ID
    · simp only [if_pos hx]
      rw [hx]
    · rw [if_neg hx] at hid
      exact absurd hid hx
  · rcases List.mem_append.1 he with h | h
    · exact absurd (hid ▸ List.mem_map_of_mem cacheEntry.ID h) hin
    · exact List.mem_singleton.1 h

theorem upsertCache_mem (cache : List cacheEntry) (row : cacheEntry) :
    row ∈ upsertCache cache row := by
  unfold upsertCache
  split_ifs with hin
  · obtain ⟨x, hx, hid⟩ := List.mem_map.1 hin
    exact List.mem_map.2 ⟨x, hx, by rw [if_pos hid, hid]⟩
  · exact List.mem_append_right _ (List.mem_singleton.2 rfl)

/-- C19, as stated, fails: a value that serializes (the string "a", whose
  serialization is the three bytes of `"a"`) is set at time 10 for 60 ticks;
  a `Get` at time 69 into an `out` that these bytes do not decode into (an
  int) finds the row and raises in `json.Unmarshal`: it does not return
  true, and `out` holds no decoding. -/
theorem cache_get_after_set_counterexample :
    Cache.Set (fun v : List Nat => Except.ok v) [] 10 "k" [34, 97, 34] 60 =
      .returned [⟨"k", [34, 97, 34], 70⟩] ∧
    Cache.Get (fun _ (_ : Int) => Except.error "json: cannot unmarshal string into Go value of type int")
        [⟨"k", [34, 97, 34], 70⟩] 69 "k" 0 =
      .panicked "json: cannot unmarshal string into Go value of type int"
        ⟨false, 0, [⟨"k", [34, 97, 34], 70⟩]⟩ := by
  decide

/-- C19, amended: after `Set(key, value, ttl)` at time `t` of a value that
  serializes, with bytes that decode into `out`, a `Get(key, out)` at a time
  before `t + ttl`, on any table that holds the same rows for `key`, returns
  true and leaves in `out` the decoding of the serialized value. -/
theorem cache_get_after_set {α ρ : Type} (marshal : α → Except String (List Nat))
    (unmarshal : List Nat → ρ → Except String ρ) (cache : List cacheEntry) (t t1 : Int)
    (key : String) (value : α) (ttl : Int) (out r : ρ) (bytes : List Nat)
    (hm : marshal value = .ok bytes) (hu : unmarshal bytes out = .ok r)
    (ht : t1 < t + ttl) :
    ∃ cache1, Cache.Set marshal cache t key value ttl = .returned cache1 ∧
      (⟨key, bytes, t + ttl⟩ : cacheEntry) ∈ cache1 ∧
      Cache.Get unmarshal cache1 t1 key out = .returned ⟨true, r, cache1⟩ ∧
      (∀ cache2 : List cacheEntry,
        cache2.filter (fun e => decide (e.ID = key)) =
          cache1.filter (fun e => decide (e.ID = key)) →
        Cache.Get unmarshal cache2 t1 key out = .returned ⟨true, r, cache2⟩) := by
  have hget : ∀ cache2 : List cacheEntry,
      cache2.filter (fun e => decide (e.ID = key)) =
        (upsertCache cache ⟨key, bytes, t + ttl⟩).filter (fun e => decide (e.ID = key)) →
      Cache.Get unmarshal cache2 t1 key out = .returned ⟨true, r, cache2⟩ := by
    intro cache2 hsame
    have hfind : cache2.find? (fun e => decide (e.ID = key ∧ e.Expires > t1)) =
        some ⟨key, bytes, t + ttl⟩ := by
      apply find?_eq_some_of_unique
      · intro e he hp
        have hp2 := of_decide_eq_true hp
        have h1 : e ∈ cache2.filter (fun e => decide (e.ID = key)) :=
          List.mem_filter.2 ⟨he, decide_eq_true hp2.1⟩
        rw [hsame] at h1
        exact upsertCache_of_id (List.mem_of_mem_filter h1) hp2.1
      · refine ⟨⟨key, bytes, t + ttl⟩, ?_, decide_eq_true ⟨rfl, ht⟩⟩
        have h1 : (⟨key, bytes, t + ttl⟩ : cacheEntry) ∈
            (upsertCache cache ⟨key, bytes, t + ttl⟩).filter (fun e => decide (e.ID = key)) :=
          List.mem_filter.2 ⟨upsertCache_mem _ _, decide_eq_true rfl⟩
        rw [← hsame] at h1
        exact List.mem_of_mem_filter h1
    unfold Cache.Get
    rw [hfind]
    simp only [hu]
  refine ⟨upsertCache cache ⟨key, bytes, t + ttl⟩, ?_, upsertCache_mem _ _, hget _ rfl, hget⟩
  unfold Cache.Set
  rw [hm]

theorem cache_get_after_set_witness :
    ∃ cache1, Cache.Set (fun v : List Nat => Except.ok v) [⟨"k", [1], 5⟩] 10 "k" [7, 7] 60 =
        .returned cache1 ∧
      (⟨"k", [7, 7], 10 + 60⟩ : cacheEntry) ∈ cache1 ∧
      Cache.Get (fun b (_ : List Nat) => Except.ok b) cache1 69 "k" [] =
        .returned ⟨true, [7, 7], cache1⟩ :=
  let ⟨c, h1, h2, h3, _⟩ := cache_get_after_set (fun v : List Nat => Except.ok v)
    (fun b (_ : List Nat) => Except.ok b) [⟨"k", [1], 5⟩] 10 69 "k" [7, 7] 60 [] [7, 7] [7, 7]
    rfl rfl (by decide)
  ⟨c, h1, h2, h3⟩

/-- C20: `Get` ends with true only if the table holds a row for `key` whose
  `expires` is strictly later than `now`; when the table holds no row for
  `key`, or only rows with `expires <= now`, it returns false and leaves
  `out` and the table as they were. The table is never changed. -/
theorem cache_get_only_unexpired {ρ : Type} (unmarshal : List Nat → ρ → Except String ρ)
    (cache : List cacheEntry) (now : Int) (key : String) (out : ρ) :
    ((Cache.Get unmarshal cache now key out).state.found = true →
      ∃ e ∈ cache, e.ID = key ∧ now < e.Expires) ∧
    ((∀ e ∈ cache, e.ID = key → e.Expires ≤ now) →
      Cache.Get unmarshal cache now key out = .returned ⟨false, out, cache⟩) ∧
    (key ∉ cache.map cacheEntry.ID →
      Cache.Get unmarshal cache now key out = .returned ⟨false, out, cache⟩) ∧
    (Cache.Get unmarshal cache now key out).state.cache = cache := by
  have hmiss : (∀ e ∈ cache, e.ID = key → e.Expires ≤ now) →
      Cache.Get unmarshal cache now key out = .returned ⟨false, out, cache⟩ := by
    intro h
    have hnone : cache.find? (fun e => decide (e.ID = key ∧ e.Expires > now)) = none := by
      rw [List.find?_eq_none]
      intro e he hp
      have hp2 := of_decide_eq_true hp
      have := h e he hp2.1
      omega
    unfold Cache.Get
    rw [hnone]
  refine ⟨?_, hmiss, ?_, ?_⟩
  · intro hfound
    unfold Cache.Get at hfound
    cases hf : cache.find? (fun e => decide (e.ID = key ∧ e.Expires > now)) with
    | none =>
      rw [hf] at hfound
      simp [Outcome.state] at hfound
    | some entry =>
      have hp0 := List.find?_some hf
      have hp : entry.ID = key ∧ entry.Expires > now := by simpa using hp0
      exact ⟨entry, List.mem_of_find?_eq_some hf, hp.1, hp.2⟩
  · intro habs
    apply hmiss
    intro e he hid
    exact absurd (hid ▸ List.mem_map_of_mem cacheEntry.ID he) habs
  · unfold Cache.Get
    cases cache.find? (fun e => decide (e.ID = key ∧ e.Expires > now)) with
    | none => rfl
    | some entry =>
      simp only
      cases unmarshal entry.Value out <;> rfl

/-! ## Lemmas on the cache statements -/

theorem cache_get_miss {ρ : Type} (unmarshal : List Nat → ρ → Except String ρ)
    (cache : List cacheEntry) (now : Int) (key : String) (out : ρ)
    (h : ∀ e ∈ cache, e.ID = key → e.Expires ≤ now) :
    Cache.Get unmarshal cache now key out = .returned ⟨false, out, cache⟩ := by
  have hnone : cache.find? (fun e => decide (e.ID = key ∧ e.Expires > now)) = none := by
    rw [List.find?_eq_none]
    intro e he hp
    have hp2 := of_decide_eq_true hp
    have := h e he hp2.1
    omega
  unfold Cache.Get
  rw [hnone]

theorem cache_get_hit {ρ : Type} (unmarshal : List Nat → ρ → Except String ρ)
    (cache cache2 : List cacheEntry) (row : cacheEntry) (now : Int) (out r : ρ)
    (hu : unmarshal row.Value out = .ok r) (ht : now < row.Expires)
    (hsame : cache2.filter (fun e => decide (e.ID = row.ID)) =
      (upsertCache cache row).filter (fun e => decide (e.ID = row.ID))) :
    Cache.Get unmarshal cache2 now row.ID out = .returned ⟨true, r, cache2⟩ := by
  have hfind : cache2.find? (fun e => decide (e.ID = row.ID ∧ e.Expires > now)) = some row := by
    apply find?_eq_some_of_unique
    · intro e he hp
      have hp2 := of_decide_eq_true hp
      have h1 : e ∈ cache2.filter (fun e => decide (e.ID = row.ID)) :=
        List.mem_filter.2 ⟨he, decide_eq_true hp2.1⟩
      rw [hsame] at h1
      exact upsertCache_of_id (List.mem_of_mem_filter h1) hp2.1
    · refine ⟨row, ?_, decide_eq_true ⟨rfl, ht⟩⟩
      have h1 : row ∈ (upsertCache cache row).filter (fun e => decide (e.ID = row.ID)) :=
        List.mem_filter.2 ⟨upsertCache_mem _ _, decide_eq_true rfl⟩
      rw [← hsame] at h1
      exact List.mem_of_mem_filter h1
  unfold Cache.Get
  rw [hfind]
  simp only [hu]

theorem upsertCache_ids (cache : List cacheEntry) (row : cacheEntry) :
    (upsertCache cache row).map cacheEntry.ID =
      if row.ID ∈ cache.map cacheEntry.ID then cache.map cacheEntry.ID
      else cache.map cacheEntry.ID ++ [row.ID] := by
  unfold upsertCache
  split_ifs with hin
  · rw [List.map_map]
    apply List.map_congr_left
    intro e _
    simp only [Function.comp]
    split_ifs <;> rfl
  · simp

theorem upsertCache_unique {cache : List cacheEntry} (h : CacheIdsUnique cache)
    (row : cacheEntry) : CacheIdsUnique (upsertCache cache row) := by
  unfold CacheIdsUnique at h ⊢
  rw [upsertCache_ids]
  split_ifs with hin
  · exact h
  · rw [List.nodup_append]
    refine ⟨h, List.nodup_singleton _, ?_⟩
    intro a ha hb
    rw [List.mem_singleton] at hb
    exact hin (hb ▸ ha)

theorem filter_id_of_unique {cache : List cacheEntry} (h : CacheIdsUnique cache)
    {x : cacheEntry} (hx : x ∈ cache) :
    cache.filter (fun e => decide (e.ID = x.ID)) = [x] := by
  induction cache with
  | nil => simp at hx
  | cons r rs ih =>
    have hnd : r.ID ∉ rs.map cacheEntry.ID ∧ CacheIdsUnique rs := by
      simpa [CacheIdsUnique] using h
    rcases List.mem_cons.1 hx with hxr | hxr
    · subst hxr
      have hrest : rs.filter (fun e => decide (e.ID = x.ID)) = [] := by
        rw [List.filter_eq_nil_iff]
        intro e he
        have : e.ID ≠ x.ID := fun hh => hnd.1 (hh ▸ List.mem_map_of_mem cacheEntry.ID he)
        simp [this]
      rw [List.filter_cons, hrest]
      simp
    · have hne : r.ID ≠ x.ID := fun hh => hnd.1 (hh ▸ List.mem_map_of_mem cacheEntry.ID hxr)
      rw [List.filter_cons]
      simp only [hne, decide_False, Bool.false_eq_true, if_false]
      exact ih hnd.2 hxr

theorem upsertCache_others (cache : List cacheEntry) (row : cacheEntry) :
    (upsertCache cache row).filter (fun e => !decide (e.ID = row.ID)) =
      cache.filter (fun e => !decide (e.ID = row.ID)) := by
  unfold upsertCache
  split_ifs with hin
  · clear hin
    induction cache with
    | nil => rfl
    | cons r rs ih =>
      rw [List.map_cons, List.filter_cons, List.filter_cons, ih]
      by_cases hr : r.ID = row.ID
      · simp [hr]
      · simp [hr]
  · simp [List.filter_append]

/-! ## The claims on Set, Delete, Try and the cleanup job -/

/-- C21, as stated, fails: for a value that `json.Marshal` refuses, `Set`
  raises and the store holds no row for the key. -/
theorem cache_set_counterexample :
    Cache.Set (fun _ : Unit => Except.error "json: unsupported type: chan int") [] 0 "k" () 60 =
      .panicked "json: unsupported type: chan int" [] := by
  decide

/-- C21, amended: for a value that serializes, `Set(key, value, ttl)` at
  time `t` returns and leaves exactly one row for `key`, holding the
  serialization of the value and `expires = t + ttl`, whatever row the key
  had before; the rows of all other keys are unchanged. -/
theorem cache_set_one_row {α : Type} (marshal : α → Except String (List Nat))
    (cache : List cacheEntry) (t : Int) (key : String) (value : α) (ttl : Int)
    (bytes : List Nat) (hm : marshal value = .ok bytes) (hu : CacheIdsUnique cache) :
    ∃ cache1, Cache.Set marshal cache t key value ttl = .returned cache1 ∧
      cache1.filter (fun e => decide (e.ID = key)) = [⟨key, bytes, t + ttl⟩] ∧
      cache1.filter (fun e => !decide (e.ID = key)) =
        cache.filter (fun e => !decide (e.ID = key)) ∧
      CacheIdsUnique cache1 := by
  refine ⟨upsertCache cache ⟨key, bytes, t + ttl⟩, ?_, ?_, ?_, upsertCache_unique hu _⟩
  · unfold Cache.Set
    rw [hm]
  · exact filter_id_of_unique (upsertCache_unique hu ⟨key, bytes, t + ttl⟩)
      (upsertCache_mem cache ⟨key, bytes, t + ttl⟩)
  · exact upsertCache_others cache ⟨key, bytes, t + ttl⟩

theorem cache_set_one_row_witness :
    ∃ cache1, Cache.Set (fun v : List Nat => Except.ok v)
        [⟨"k", [1], 5⟩, ⟨"other", [2], 9⟩] 10 "k" [7, 7] 60 = .returned cache1 ∧
      cache1.filter (fun e => decide (e.ID = "k")) = [⟨"k", [7, 7], 10 + 60⟩] :=
  let ⟨c, h1, h2, _⟩ := cache_set_one_row (fun v : List Nat => Except.ok v)
    [⟨"k", [1], 5⟩, ⟨"other", [2], 9⟩] 10 "k" [7, 7] 60 [7, 7] rfl (by decide)
  ⟨c, h1, h2⟩

/-- C22: after `Delete(key)` the table holds no row for `key`, so a
  `Get(key, out)` at any time returns false and leaves `out` alone, on the
  table `Delete` left and on every later table that has no row for `key`
  (none was set again); the rows of all other keys are unchanged. -/
theorem cache_delete_then_get {ρ : Type} (unmarshal : List Nat → ρ → Except String ρ)
    (cache : List cacheEntry) (key : String) :
    key ∉ (Cache.Delete cache key).map cacheEntry.ID ∧
    (∀ (now : Int) (out : ρ),
      Cache.Get unmarshal (Cache.Delete cache key) now key out =
        .returned ⟨false, out, Cache.Delete cache key⟩) ∧
    (∀ (cache2 : List cacheEntry) (now : Int) (out : ρ), key ∉ cache2.map cacheEntry.ID →
      Cache.Get unmarshal cache2 now key out = .returned ⟨false, out, cache2⟩) ∧
    (Cache.Delete cache key).filter (fun e => !decide (e.ID = key)) =
      cache.filter (fun e => !decide (e.ID = key)) ∧
    (Cache.Delete cache key).Sublist cache := by
  have hno : key ∉ (Cache.Delete cache key).map cacheEntry.ID := by
    intro hin
    obtain ⟨e, he, hid⟩ := List.mem_map.1 hin
    have := (List.mem_filter.1 he).2
    simp [hid] at this
  have hget : ∀ (cache2 : List cacheEntry) (now : Int) (out : ρ),
      key ∉ cache2.map cacheEntry.ID →
      Cache.Get unmarshal cache2 now key out = .returned ⟨false, out, cache2⟩ := by
    intro cache2 now out habs
    apply cache_get_miss
    intro e he hid
    exact absurd (hid ▸ List.mem_map_of_mem cacheEntry.ID he) habs
  refine ⟨hno, fun now out => hget _ now out hno, hget, ?_, List.filter_sublist _⟩
  unfold Cache.Delete
  rw [List.filter_filter]
  apply List.filter_congr
  intro e _
  simp

/-- C23, as stated, fails: with a fallback whose value `json.Marshal`
  refuses, the first `Try` calls the fallback once and raises in `Set`,
  nothing is stored, and a second `Try` calls the fallback again: two calls
  in all. -/
theorem cache_try_counterexample :
    Cache.Try (fun _ : Unit => Except.error "json: unsupported type: chan int")
        (fun b (_ : List Nat) => Except.ok b) [] 0 0 "k" [] 60 (fun c => (Except.ok (), c)) =
      .panicked "json: unsupported type: chan int" ⟨1, [], []⟩ ∧
    Cache.Try (fun _ : Unit => Except.error "json: unsupported type: chan int")
        (fun b (_ : List Nat) => Except.ok b) [] 1 1 "k" [] 60 (fun c => (Except.ok (), c)) =
      .panicked "json: unsupported type: chan int" ⟨1, [], []⟩ := by
  decide

/-- C23, amended: for a key with no unexpired row and a fallback that
  returns a value that serializes and decodes, a `Try` followed, before the
  row it stored expires, by a second `Try` on the same key calls the
  fallback once in all: once in the first call and not in the second, which
  returns the decoding of the bytes the first one stored. -/
theorem cache_try_twice {α ρ : Type} (marshal : α → Except String (List Nat))
    (unmarshal : List Nat → ρ → Except String ρ) (cache cache1 : List cacheEntry)
    (getNow setNow getNow2 setNow2 : Int) (key : String) (out out2 r r2 : ρ) (ttl ttl2 : Int)
    (fn fn2 : List cacheEntry → Except String α × List cacheEntry) (value : α)
    (bytes : List Nat)
    (hmiss : ∀ e ∈ cache, e.ID = key → e.Expires ≤ getNow)
    (hfn : fn cache = (.ok value, cache1)) (hm : marshal value = .ok bytes)
    (hu : unmarshal bytes out = .ok r) (hu2 : unmarshal bytes out2 = .ok r2)
    (ht : getNow2 < setNow + ttl) :
    Cache.Try marshal unmarshal cache getNow setNow key out ttl fn =
      .returned ⟨1, r, upsertCache cache1 ⟨key, bytes, setNow + ttl⟩⟩ ∧
    (⟨key, bytes, setNow + ttl⟩ : cacheEntry) ∈ upsertCache cache1 ⟨key, bytes, setNow + ttl⟩ ∧
    Cache.Try marshal unmarshal (upsertCache cache1 ⟨key, bytes, setNow + ttl⟩) getNow2 setNow2
        key out2 ttl2 fn2 =
      .returned ⟨0, r2, upsertCache cache1 ⟨key, bytes, setNow + ttl⟩⟩ := by
  refine ⟨?_, upsertCache_mem _ _, ?_⟩
  · unfold Cache.Try
    rw [cache_get_miss unmarshal cache getNow key out hmiss]
    simp only [Bool.false_eq_true, if_false, hfn, Cache.Set, hm, hu]
  · unfold Cache.Try
    rw [cache_get_hit unmarshal cache1 _ ⟨key, bytes, setNow + ttl⟩ getNow2 out2 r2 hu2 ht rfl]
    simp

theorem cache_try_twice_witness :
    Cache.Try (fun v : List Nat => Except.ok v) (fun b (_ : List Nat) => Except.ok b)
        (upsertCache [⟨"k", [1], 5⟩] ⟨"k", [7, 7], 10 + 60⟩) 69 69 "k" [] 60
        (fun c => (Except.ok [8], c)) =
      .returned ⟨0, [7, 7], upsertCache [⟨"k", [1], 5⟩] ⟨"k", [7, 7], 10 + 60⟩⟩ :=
  (cache_try_twice (fun v : List Nat => Except.ok v) (fun b (_ : List Nat) => Except.ok b)
    [⟨"k", [1], 5⟩] [⟨"k", [1], 5⟩] 10 10 69 69 "k" [] [] [7, 7] [7, 7] 60 60
    (fun c => (Except.ok [7, 7], c)) (fun c => (Except.ok [8], c)) [7, 7] [7, 7]
    (by decide) rfl rfl rfl rfl (by decide)).2.2

/-- C24, as stated, fails: for a key that misses and a fallback returning a
  value that serializes (the string "a"), with an `out` that the bytes do not
  decode into (an int), `Try` calls the fallback, stores the row and raises
  in its own `json.Unmarshal`; a `Get` on the key made afterwards and before
  expiry raises too. Neither leaves a decoding in `out`. -/
theorem cache_try_matches_get_counterexample :
    Cache.Try (fun v : List Nat => Except.ok v)
        (fun _ (_ : Int) => Except.error "json: cannot unmarshal string into Go value of type int")
        [] 10 10 "k" 0 60 (fun c => (Except.ok [34, 97, 34], c)) =
      .panicked "json: cannot unmarshal string into Go value of type int"
        ⟨1, 0, [⟨"k", [34, 97, 34], 70⟩]⟩ ∧
    Cache.Get (fun _ (_ : Int) => Except.error "json: cannot unmarshal string into Go value of type int")
        [⟨"k", [34, 97, 34], 70⟩] 69 "k" 0 =
      .panicked "json: cannot unmarshal string into Go value of type int"
        ⟨false, 0, [⟨"k", [34, 97, 34], 70⟩]⟩ := by
  decide

/-- C24, amended: for a key that misses and a fallback returning a value
  that serializes, with bytes that decode into `out`, `Try` returns with the
  fallback called once, and the value it leaves in `out` is the value that a
  `Get` on the same key, made afterwards and before the row expires into an
  `out` initialised the same way, produces: the decoding of the bytes of the
  fallback's value. -/
theorem cache_try_matches_get {α ρ : Type} (marshal : α → Except String (List Nat))
    (unmarshal : List Nat → ρ → Except String ρ) (cache cache1 : List cacheEntry)
    (getNow setNow getNow2 : Int) (key : String) (out r : ρ) (ttl : Int)
    (fn : List cacheEntry → Except String α × List cacheEntry) (value : α)
    (bytes : List Nat)
    (hmiss : ∀ e ∈ cache, e.ID = key → e.Expires ≤ getNow)
    (hfn : fn cache = (.ok value, cache1)) (hm : marshal value = .ok bytes)
    (hu : unmarshal bytes out = .ok r) (ht : getNow2 < setNow + ttl) :
    ∃ cache2, Cache.Try marshal unmarshal cache getNow setNow key out ttl fn =
        .returned ⟨1, r, cache2⟩ ∧
      Cache.Get unmarshal cache2 getNow2 key out = .returned ⟨true, r, cache2⟩ ∧
      (⟨key, bytes, setNow + ttl⟩ : cacheEntry) ∈ cache2 := by
  refine ⟨upsertCache cache1 ⟨key, bytes, setNow + ttl⟩, ?_, ?_, upsertCache_mem _ _⟩
  · unfold Cache.Try
    rw [cache_get_miss unmarshal cache getNow key out hmiss]
    simp only [Bool.false_eq_true, if_false, hfn, Cache.Set, hm, hu]
  · exact cache_get_hit unmarshal cache1 _ ⟨key, bytes, setNow + ttl⟩ getNow2 out r hu ht rfl

theorem cache_try_matches_get_witness :
    ∃ cache2, Cache.Try (fun v : List Nat => Except.ok v) (fun b (_ : List Nat) => Except.ok b)
        [⟨"k", [1], 5⟩] 10 10 "k" [] 60 (fun c => (Except.ok [7, 7], c)) =
        .returned ⟨1, [7, 7], cache2⟩ ∧
      Cache.Get (fun b (_ : List Nat) => Except.ok b) cache2 69 "k" [] =
        .returned ⟨true, [7, 7], cache2⟩ :=
  let ⟨c, h1, h2, _⟩ := cache_try_matches_get (fun v : List Nat => Except.ok v)
    (fun b (_ : List Nat) => Except.ok b) [⟨"k", [1], 5⟩] [⟨"k", [1], 5⟩] 10 10 69 "k" [] [7, 7] 60
    (fun c => (Except.ok [7, 7], c)) [7, 7] [7, 7] (by decide) rfl rfl rfl (by decide)
  ⟨c, h1, h2⟩

theorem find?_filter_of_imp {α : Type} (p q : α → Bool) (l : List α)
    (h : ∀ e ∈ l, p e = true → q e = true) : (l.filter q).find? p = l.find? p := by
  induction l with
  | nil => rfl
  | cons a l ih =>
    have ih2 := ih (fun e he => h e (List.mem_cons_of_mem _ he))
    by_cases hq : q a = true
    · rw [List.filter_cons, if_pos hq, List.find?_cons, List.find?_cons, ih2]
    · have hp : p a = false := by
        cases hpa : p a with
        | false => rfl
        | true => exact absurd (h a (List.mem_cons_self _ _) hpa) hq
      rw [List.filter_cons, if_neg hq, List.find?_cons, hp, ih2]

/-- C25: after the cleanup job has run at time `t` no cache row with
  `expires` earlier than `t` remains, every row whose `expires` is not
  earlier than `t` is still there as it was, and every `Get` made from then
  on (at a time not before `t`) gives what it would have given on the table
  before the cleanup. -/
theorem cleanup_keeps_reads {ρ : Type} (unmarshal : List Nat → ρ → Except String ρ)
    (w : World) (args : J) (t : Int) :
    cleanupJob t w args =
      .returned { w with db := { w.db with cache := cleanupCache w.db.cache t } } ∧
    (∀ e ∈ cleanupCache w.db.cache t, ¬ e.Expires < t) ∧
    (∀ e ∈ w.db.cache, ¬ e.Expires < t → e ∈ cleanupCache w.db.cache t) ∧
    (cleanupCache w.db.cache t).Sublist w.db.cache ∧
    (∀ (now : Int) (key : String) (out : ρ), t ≤ now →
      (Cache.Get unmarshal (cleanupCache w.db.cache t) now key out).state.found =
        (Cache.Get unmarshal w.db.cache now key out).state.found ∧
      (Cache.Get unmarshal (cleanupCache w.db.cache t) now key out).state.result =
        (Cache.Get unmarshal w.db.cache now key out).state.result ∧
      ((∃ g, Cache.Get unmarshal (cleanupCache w.db.cache t) now key out = .returned g) ↔
        ∃ g, Cache.Get unmarshal w.db.cache now key out = .returned g)) := by
  refine ⟨rfl, ?_, ?_, List.filter_sublist _, ?_⟩
  · intro e he
    have := (List.mem_filter.1 he).2
    simpa using this
  · intro e he hne
    exact List.mem_filter.2 ⟨he, by simpa using hne⟩
  · intro now key out hle
    have hfind : (cleanupCache w.db.cache t).find?
        (fun e => decide (e.ID = key ∧ e.Expires > now)) =
        w.db.cache.find? (fun e => decide (e.ID = key ∧ e.Expires > now)) := by
      unfold cleanupCache
      apply find?_filter_of_imp
      intro e _ hp
      have hp2 := of_decide_eq_true hp
      have : ¬ e.Expires < t := by omega
      simpa using this
    unfold Cache.Get
    rw [hfind]
    cases w.db.cache.find? (fun e => decide (e.ID = key ∧ e.Expires > now)) with
    | none => exact ⟨rfl, rfl, ⟨fun _ => ⟨_, rfl⟩, fun _ => ⟨_, rfl⟩⟩⟩
    | some entry =>
      simp only
      cases unmarshal entry.Value out with
      | error err => exact ⟨rfl, rfl, by simp⟩
      | ok r => exact ⟨rfl, rfl, ⟨fun _ => ⟨_, rfl⟩, fun _ => ⟨_, rfl⟩⟩⟩

/-! ## The claim on NewID -/

theorem idEncoding_increasing : idEncoding.Pairwise (fun a b => a < b) := by
  decide

theorem encodingAt_lt {i j : Nat} (hij : i < j) (hj : j < 53) :
    encodingAt i < encodingAt j := by
  have hlen : idEncoding.length = 53 := by decide
  have hi : i < idEncoding.length := by omega
  have hj2 : j < idEncoding.length := by omega
  unfold encodingAt
  rw [List.getD_eq_getElem _ _ hi, List.getD_eq_getElem _ _ hj2]
  exact List.pairwise_iff_getElem.1 idEncoding_increasing i j hi hj2 hij

theorem timestampChars_length : ∀ (n now : Nat), (timestampChars n now).length = n
  | 0, _ => rfl
  | n + 1, now => by
    simp [timestampChars, timestampChars_length n]

theorem chars_lt_append_of_lt {l1 l2 : List Char}
    (h : List.Lex (fun a b : Char => a < b) l1 l2)
    (hlen : l1.length = l2.length) (s1 s2 : List Char) :
    List.Lex (fun a b : Char => a < b) (l1 ++ s1) (l2 ++ s2) := by
  induction h with
  | nil => simp at hlen
  | cons _ ih => exact List.Lex.cons (ih (by simpa using hlen))
  | rel hab => exact List.Lex.rel hab

theorem chars_append_lt_of_lt (l : List Char) {s1 s2 : List Char}
    (h : List.Lex (fun a b : Char => a < b) s1 s2) :
    List.Lex (fun a b : Char => a < b) (l ++ s1) (l ++ s2) := by
  induction l with
  | nil => exact h
  | cons a l ih => exact List.Lex.cons ih

theorem timestampChars_lt : ∀ (n a b : Nat), a < b → b < 53 ^ n →
    List.Lex (fun a b : Char => a < b) (timestampChars n a) (timestampChars n b)
  | 0, a, b, hab, hb => by
    simp at hb
    omega
  | n + 1, a, b, hab, hb => by
    have ha3 : (a - a % 53) / 53 = a / 53 := by omega
    have hb3 : (b - b % 53) / 53 = b / 53 := by omega
    have hb4 : b / 53 < 53 ^ n := by
      rw [Nat.div_lt_iff_lt_mul (by decide)]
      rw [pow_succ] at hb
      exact hb
    unfold timestampChars
    rw [ha3, hb3]
    rcases Nat.lt_or_ge (a / 53) (b / 53) with hlt | hge
    · exact chars_lt_append_of_lt (timestampChars_lt n _ _ hlt hb4)
        (by rw [timestampChars_length, timestampChars_length]) _ _
    · have heq : a / 53 = b / 53 := by omega
      have hmod : a % 53 < b % 53 := by omega
      rw [heq]
      apply chars_append_lt_of_lt
      exact List.Lex.rel (encodingAt_lt hmod (Nat.mod_lt _ (by decide)))

/-- C26: for millisecond timestamps `t1 < t2 < 53^10` the ten characters
  that `NewID` writes for `t1` come strictly before those it writes for `t2`
  in lexical order (character by character, which for these one-byte
  characters is byte by byte); they are the first ten characters of the id,
  so the id made at `t1` sorts before the id made at `t2` as a string,
  whatever the random parts. -/
theorem newID_time_ordered (t1 t2 : Nat) (h12 : t1 < t2) (h2 : t2 < 53 ^ 10) :
    List.Lex (fun a b : Char => a < b) (timestampChars 10 t1) (timestampChars 10 t2) ∧
    String.mk (timestampChars 10 t1) < String.mk (timestampChars 10 t2) ∧
    (∀ rnd : Fin 10 → Fin 53, (NewID t1 rnd).data.take 10 = timestampChars 10 t1 ∧
      (NewID t2 rnd).data.take 10 = timestampChars 10 t2 ∧
      (NewID t1 rnd).length = 20) ∧
    (∀ rnd1 rnd2 : Fin 10 → Fin 53, NewID t1 rnd1 < NewID t2 rnd2) := by
  have hlt := timestampChars_lt 10 t1 t2 h12 h2
  have htake : ∀ (t : Nat) (rnd : Fin 10 → Fin 53),
      (NewID t rnd).data.take 10 = timestampChars 10 t := by
    intro t rnd
    unfold NewID
    simp only
    rw [List.take_append_of_le_length (by rw [timestampChars_length])]
    exact List.take_of_length_le (by rw [timestampChars_length])
  have hs : String.mk (timestampChars 10 t1) < String.mk (timestampChars 10 t2) :=
    String.lt_iff_toList_lt.2 hlt
  refine ⟨hlt, hs, fun rnd => ⟨htake t1 rnd, htake t2 rnd, ?_⟩, ?_⟩
  · unfold NewID
    simp [String.length, timestampChars_length]
  · intro rnd1 rnd2
    exact String.lt_iff_toList_lt.2 (chars_lt_append_of_lt hlt
      (by rw [timestampChars_length, timestampChars_length]) _ _)

theorem newID_time_ordered_witness :
    String.mk (timestampChars 10 1730000000000) < String.mk (timestampChars 10 1730000000001) :=
  (newID_time_ordered 1730000000000 1730000000001 (by decide) (by decide)).2.1

/-! ## The claim on Enqueue and Delay -/

theorem newID_ne_of_ms_ne (t1 t2 : Nat) (rnd1 rnd2 : Fin 10 → Fin 53) (hne : t1 ≠ t2)
    (h1 : t1 < 53 ^ 10) (h2 : t2 < 53 ^ 10) : NewID t1 rnd1 ≠ NewID t2 rnd2 := by
  intro heq
  rcases Nat.lt_or_gt_of_ne hne with h | h
  · have hlt : NewID t1 rnd1 < NewID t2 rnd2 :=
      String.lt_iff_toList_lt.2 (chars_lt_append_of_lt (timestampChars_lt 10 t1 t2 h h2)
        (by rw [timestampChars_length, timestampChars_length]) _ _)
    rw [heq] at hlt
    exact lt_irrefl _ hlt
  · have hlt : NewID t2 rnd2 < NewID t1 rnd1 :=
      String.lt_iff_toList_lt.2 (chars_lt_append_of_lt (timestampChars_lt 10 t2 t1 h h1)
        (by rw [timestampChars_length, timestampChars_length]) _ _)
    rw [heq] at hlt
    exact lt_irrefl _ hlt

/-- The id `NewID` makes at millisecond `ms` is not in a table whose ids
  `NewID` made at other milliseconds. -/
theorem newID_fresh (rows : List Job) (ms : Nat) (rnd : Fin 10 → Fin 53) (hms : ms < 53 ^ 10)
    (hrows : ∀ r ∈ rows, ∃ ms1 rnd1, r.ID = NewID ms1 rnd1 ∧ ms1 < 53 ^ 10 ∧ ms1 ≠ ms) :
    NewID ms rnd ∉ rows.map Job.ID := by
  intro hin
  obtain ⟨r, hr, hid⟩ := List.mem_map.1 hin
  obtain ⟨ms1, rnd1, hr1, h1, hne⟩ := hrows r hr
  rw [hr1] at hid
  exact newID_ne_of_ms_ne ms1 ms rnd1 rnd hne h1 hms hid

/-- C7, as stated, fails. A priority that the column `priority int` cannot
  hold (2147483648; the parameter is an `int64`) makes the insert raise, and
  so do arguments that `json.Marshal` refuses (a channel) and an id that
  `NewID` made before (same millisecond, same random draws): in each case no
  row is added. -/
theorem delay_enqueue_counterexample :
    Enqueue exAtTen "b" 5 1 "mail" [] emptyArgsValue [2147483648] =
      .panicked "pq: value is out of range for type integer" exAtTen ∧
    Delay exAtTen "b" 5 1 "mail" [("done", "make(chan int)")]
        (.error "json: unsupported type: chan int") 60 [] =
      .panicked "json: unsupported type: chan int" exAtTen ∧
    Enqueue [⟨NewID 1730000000000 (fun _ => 0), "job", [], JobPriorityLow, 5⟩]
        (NewID 1730000000000 (fun _ => 0)) 5 1 "mail" [] emptyArgsValue [] =
      .panicked "pq: duplicate key value violates unique constraint"
        [⟨NewID 1730000000000 (fun _ => 0), "job", [], JobPriorityLow, 5⟩] := by
  decide

/-- C7, amended: for arguments that serialize and a priority (the one given,
  or Low when none is given) that the column `priority int` holds, `Delay`
  called at time `now`, with the id that `NewID` returns not in the table,
  returns with the table grown by exactly the row (id, name, args, priority,
  `now + delay`), and every old row is kept as it was; `Enqueue` does the
  same with `created = now`. With an id that is in the table both raise and
  leave the table as it is. The id is not in the table when the ids there
  were made by `NewID` at other milliseconds. The three priority constants
  fit the column. -/
theorem delay_enqueue_insert_one_row (rows : List Job) (ms : Nat) (rnd : Fin 10 → Fin 53)
    (now : Int) (slot : Nat) (name : String) (args : J)
    (argsValue : Except String (List Nat)) (bytes : List Nat) (delay : Int)
    (priorityArgs : List Int)
    (hval : argsValue = .ok bytes) (hfit : fitsInt4 (priorityOf priorityArgs) = true) :
    (NewID ms rnd ∉ rows.map Job.ID →
      Delay rows (NewID ms rnd) now slot name args argsValue delay priorityArgs =
        .returned
          (insertRow slot ⟨NewID ms rnd, name, args, priorityOf priorityArgs, now + delay⟩ rows) ∧
      Enqueue rows (NewID ms rnd) now slot name args argsValue priorityArgs =
        .returned (insertRow slot ⟨NewID ms rnd, name, args, priorityOf priorityArgs, now⟩ rows)) ∧
    (NewID ms rnd ∈ rows.map Job.ID →
      Delay rows (NewID ms rnd) now slot name args argsValue delay priorityArgs =
        .panicked "pq: duplicate key value violates unique constraint" rows ∧
      Enqueue rows (NewID ms rnd) now slot name args argsValue priorityArgs =
        .panicked "pq: duplicate key value violates unique constraint" rows) ∧
    (ms < 53 ^ 10 →
      (∀ r ∈ rows, ∃ ms1 rnd1, r.ID = NewID ms1 rnd1 ∧ ms1 < 53 ^ 10 ∧ ms1 ≠ ms) →
      NewID ms rnd ∉ rows.map Job.ID) ∧
    (∀ row : Job, (insertRow slot row rows).Perm (row :: rows) ∧
      rows.Sublist (insertRow slot row rows) ∧
      (insertRow slot row rows).length = rows.length + 1) ∧
    priorityOf [] = JobPriorityLow ∧ (∀ p ps, priorityOf (p :: ps) = p) ∧
    fitsInt4 JobPriorityHigh = true ∧ fitsInt4 JobPriorityMedium = true ∧
    fitsInt4 JobPriorityLow = true := by
  subst hval
  refine ⟨fun hfresh => ⟨?_, ?_⟩, fun hin => ⟨?_, ?_⟩, newID_fresh rows ms rnd, ?_,
    rfl, fun _ _ => rfl, by decide, by decide, by decide⟩
  · simp only [Delay, insertJob, hfit, Bool.not_true, Bool.false_eq_true, if_false,
      if_neg hfresh]
  · simp only [Enqueue, insertJob, hfit, Bool.not_true, Bool.false_eq_true, if_false,
      if_neg hfresh]
  · simp only [Delay, insertJob, hfit, Bool.not_true, Bool.false_eq_true, if_false,
      if_pos hin]
  · simp only [Enqueue, insertJob, hfit, Bool.not_true, Bool.false_eq_true, if_false,
      if_pos hin]
  · intro row
    refine ⟨insertRow_perm slot row rows, insertRow_sublist slot row rows, ?_⟩
    rw [(insertRow_perm slot row rows).length_eq, List.length_cons]

theorem delay_enqueue_insert_one_row_witness :
    Delay exAtTen (NewID 1730000000000 (fun _ => 0)) 5 1 "mail" [("to", "x")]
        (.ok [123, 34, 116, 111, 34, 58, 34, 120, 34, 125]) 60 [JobPriorityMedium] =
      .returned (insertRow 1
        ⟨NewID 1730000000000 (fun _ => 0), "mail", [("to", "x")],
          priorityOf [JobPriorityMedium], 5 + 60⟩ exAtTen) :=
  ((delay_enqueue_insert_one_row exAtTen 1730000000000 (fun _ => 0) 5 1 "mail" [("to", "x")]
    (.ok [123, 34, 116, 111, 34, 58, 34, 120, 34, 125])
    [123, 34, 116, 111, 34, 58, 34, 120, 34, 125] 60 [JobPriorityMedium]
    rfl (by decide)).1 (by decide)).1

/-! ## The claims on RunCliJob -/

/-- C27, as stated, fails: with ENV unset `IsProduction` reports
  non-production, yet `RunCliJob` without a job name runs "start"; with
  ENV=dev `IsProduction` reports production, yet it runs "help". -/
theorem cli_default_job_counterexample :
    IsProduction (fun _ => "") = false ∧ cliJobName (fun _ => "") ["app"] = "start" ∧
    IsProduction (fun n => if n = "ENV" then "dev" else "") = true ∧
    cliJobName (fun n => if n = "ENV" then "dev" else "") ["app"] = "help" := by
  decide

/-- C27, amended: started with no job-name argument, or an empty one,
  `RunCliJob` runs "help" when the ENV setting is "dev" and "start"
  otherwise, so "start" in every mode that `IsProduction` reports as
  non-production (ENV unset or "development"), while ENV=dev counts as
  production for `IsProduction`; a first argument that is not empty is the
  job name that is run. -/
theorem cli_default_job (jobs : JobRegistry) (w : World) (getenv : String → String)
    (osArgs : List String) :
    RunCliJob jobs w getenv osArgs =
      RunJob jobs w (cliJobName getenv osArgs) (cliArgs (osArgs.drop 2) []) ∧
    (∀ prog name rest, osArgs = prog :: name :: rest → name ≠ "" →
      cliJobName getenv osArgs = name) ∧
    ((osArgs.length ≤ 1 ∨ osArgs.getD 1 "" = "") →
      cliJobName getenv osArgs = if getenv "ENV" = "dev" then "help" else "start") ∧
    (IsProduction getenv = false →
      (osArgs.length ≤ 1 ∨ osArgs.getD 1 "" = "") → cliJobName getenv osArgs = "start") ∧
    (getenv "ENV" = "dev" → IsProduction getenv = true) := by
  have henv : Env getenv "ENV" "development" = "dev" ↔ getenv "ENV" = "dev" := by
    unfold Env
    by_cases h : getenv "ENV" = ""
    · simp [h]
    · simp [h]
  have hdefault : (osArgs.length ≤ 1 ∨ osArgs.getD 1 "" = "") →
      cliJobName getenv osArgs = if getenv "ENV" = "dev" then "help" else "start" := by
    intro h
    have hj : (if osArgs.length > 1 then osArgs.getD 1 "" else "") = "" := by
      rcases h with h | h
      · rw [if_neg (by omega)]
      · split_ifs
        · exact h
        · rfl
    unfold cliJobName
    simp only [hj, if_true]
    by_cases hd : getenv "ENV" = "dev"
    · rw [if_pos (henv.2 hd), if_pos hd]
    · rw [if_neg (fun hh => hd (henv.1 hh)), if_neg hd]
  refine ⟨rfl, ?_, hdefault, ?_, ?_⟩
  · intro prog name rest hargs hne
    subst hargs
    unfold cliJobName
    simp [hne]
  · intro hprod hno
    rw [hdefault hno]
    have hne : getenv "ENV" ≠ "dev" := by
      intro hd
      unfold IsProduction Env at hprod
      rw [hd] at hprod
      revert hprod
      decide
    rw [if_neg hne]
  · intro hd
    unfold IsProduction Env
    rw [hd]
    decide

theorem splitN2_of_no_eq (a : String) (h : '=' ∉ a.data) : SplitN2 a = [a] := by
  have hall : ∀ c ∈ a.data, (c != '=') = true := by
    intro c hc
    have : c ≠ '=' := fun he => h (he ▸ hc)
    simpa using this
  have hd : a.data.dropWhile (fun c => c != '=') = [] := by
    rw [List.dropWhile_eq_nil_iff]
    exact hall
  unfold SplitN2
  rw [List.span_eq_take_drop, hd]

theorem splitN2_of_eq (a : String) (key value : List Char)
    (ha : a.data = key ++ '=' :: value) (hk : '=' ∉ key) :
    SplitN2 a = [String.mk key, String.mk value] := by
  have hall : ∀ c ∈ key, (c != '=') = true := by
    intro c hc
    have : c ≠ '=' := fun he => hk (he ▸ hc)
    simpa using this
  have ht : a.data.takeWhile (fun c => c != '=') = key := by
    rw [ha, List.takeWhile_append_of_pos hall]
    simp
  have hd : a.data.dropWhile (fun c => c != '=') = '=' :: value := by
    rw [ha, List.dropWhile_append_of_pos hall]
    simp
  unfold SplitN2
  rw [List.span_eq_take_drop, ht, hd]

theorem exists_first_eq (l : List Char) (h : '=' ∈ l) :
    ∃ key value, l = key ++ '=' :: value ∧ '=' ∉ key := by
  induction l with
  | nil => simp at h
  | cons c cs ih =>
    by_cases hc : c = '='
    · exact ⟨[], cs, by simp [hc], by simp⟩
    · have hcs : '=' ∈ cs := by
        rcases List.mem_cons.1 h with h1 | h1
        · exact absurd h1.symm hc
        · exact h1
      obtain ⟨key, value, hkv, hk⟩ := ih hcs
      refine ⟨c :: key, value, by simp [hkv], ?_⟩
      simp only [List.mem_cons, not_or]
      exact ⟨fun he => hc he.symm, hk⟩

theorem jset_lookup_self (j : J) (k v : String) : (J.Set j k v).lookup k = some v := by
  unfold J.Set J.lookup
  split_ifs with hk
  · induction j with
    | nil => simp at hk
    | cons e m ih =>
      obtain ⟨k1, v1⟩ := e
      by_cases h1 : k1 = k
      · subst h1
        simp
      · have hne : (k == k1) = false := by simpa using (Ne.symm h1)
        have hk2 : k ∈ m.map Prod.fst := by
          simp only [List.map_cons, List.mem_cons] at hk
          rcases hk with hk | hk
          · exact absurd hk.symm h1
          · exact hk
        simp only [List.map_cons, if_neg h1, List.lookup_cons, hne]
        exact ih hk2
  · have hnone : List.lookup k j = none := by
      rw [List.lookup_eq_none_iff]
      intro e he
      have : e.1 ≠ k := fun hh => hk (hh ▸ List.mem_map_of_mem Prod.fst he)
      simpa using Ne.symm this
    rw [List.lookup_append, hnone]
    simp

theorem jset_lookup_other (j : J) (k v k1 : String) (hne : k1 ≠ k) :
    (J.Set j k v).lookup k1 = j.lookup k1 := by
  unfold J.Set J.lookup
  split_ifs with hk
  · clear hk
    induction j with
    | nil => rfl
    | cons e m ih =>
      obtain ⟨k2, v2⟩ := e
      by_cases h2 : k2 = k
      · subst h2
        have hb : (k1 == k2) = false := by simpa using hne
        simp only [List.map_cons, if_true, List.lookup_cons, hb]
        exact ih
      · simp only [List.map_cons, if_neg h2, List.lookup_cons]
        rw [ih]
  · have hb : (k1 == k) = false := by simpa using hne
    rw [List.lookup_append]
    simp [List.lookup_cons, hb]

theorem cliArgs_cons (a : String) (rest : List String) (args : J) :
    cliArgs (a :: rest) args = cliArgs rest (J.Set args (argBinding a).1 (argBinding a).2) := by
  unfold argBinding
  rw [cliArgs]
  split_ifs <;> rfl

theorem cliArgs_append_one (l : List String) (a : String) (args : J) :
    cliArgs (l ++ [a]) args = J.Set (cliArgs l args) (argBinding a).1 (argBinding a).2 := by
  induction l generalizing args with
  | nil =>
    rw [List.nil_append, cliArgs_cons]
    rfl
  | cons b l ih =>
    rw [List.cons_append, cliArgs_cons, cliArgs_cons, ih]

/-- C29: `RunCliJob` hands the job the map built from the arguments after
  the job name, from left to right: an argument without '=' is bound under
  the key "arg", an argument with '=' is cut at its first '=' into key and
  value (the value keeps any further '='), each argument sets its key in the
  map built so far, and a key set again takes the later value while the
  other keys keep theirs. -/
theorem cli_args_left_to_right :
    (∀ (jobs : JobRegistry) (w : World) (getenv : String → String) (osArgs : List String),
      RunCliJob jobs w getenv osArgs =
        RunJob jobs w (cliJobName getenv osArgs) (cliArgs (osArgs.drop 2) [])) ∧
    (∀ a : String, '=' ∉ a.data → argBinding a = ("arg", a)) ∧
    (∀ a : String, '=' ∈ a.data → ∃ key value, a.data = key ++ '=' :: value ∧ '=' ∉ key ∧
      argBinding a = (String.mk key, String.mk value)) ∧
    (∀ (a : String) (rest : List String) (args : J),
      cliArgs (a :: rest) args = cliArgs rest (J.Set args (argBinding a).1 (argBinding a).2)) ∧
    (∀ (l : List String) (a : String) (args : J),
      cliArgs (l ++ [a]) args = J.Set (cliArgs l args) (argBinding a).1 (argBinding a).2) ∧
    (∀ (l : List String) (a : String) (args : J) (k : String),
      (cliArgs (l ++ [a]) args).lookup k =
        if k = (argBinding a).1 then some (argBinding a).2 else (cliArgs l args).lookup k) := by
  refine ⟨fun _ _ _ _ => rfl, ?_, ?_, cliArgs_cons, cliArgs_append_one, ?_⟩
  · intro a h
    unfold argBinding
    rw [splitN2_of_no_eq a h]
    rfl
  · intro a h
    obtain ⟨key, value, hkv, hk⟩ := exists_first_eq a.data h
    refine ⟨key, value, hkv, hk, ?_⟩
    unfold argBinding
    rw [splitN2_of_eq a key value hkv hk]
    rfl
  · intro l a args k
    rw [cliArgs_append_one]
    by_cases hk : k = (argBinding a).1
    · rw [if_pos hk, hk]
      exact jset_lookup_self _ _ _
    · rw [if_neg hk]
      exact jset_lookup_other _ _ _ _ hk

/-! ## The claim on draining the queue -/

theorem claimAll_drains : ∀ (times : List Int) (rows : List Job), IdsUnique rows →
    (∀ t ∈ times, ∀ j ∈ rows, j.Created < t) → rows.length ≤ 5 * times.length →
    (claimAll times rows).1.flatten.Perm rows ∧
    (claimAll times rows).2 = [] ∧
    (claimAll times rows).1.Pairwise (fun b1 b2 => ∀ j ∈ b1, ∀ k ∈ b2, jobLe j k) ∧
    (∀ b ∈ (claimAll times rows).1, b.length ≤ 5)
  | [], rows, _, _, hn => by
    have hnil : rows = [] := List.length_eq_zero.1 (by simpa using hn)
    subst hnil
    simp [claimAll]
  | t :: ts, rows, h, hdue, hn => by
    have hall : rows.filter (isDue t) = rows :=
      List.filter_eq_self.2 (fun j hj => by
        simpa [isDue] using hdue t (List.mem_cons_self _ _) j hj)
    have hsub := claim_snd_sublist rows t
    have h2 : IdsUnique (claim rows t).2 := idsUnique_of_sublist hsub h
    have hlen1 := claim_fst_length h t
    rw [hall] at hlen1
    have hperm := claim_perm rows t
    have hlen2 : (claim rows t).1.length + (claim rows t).2.length = rows.length := by
      rw [← List.length_append]
      exact hperm.length_eq
    have hn2 : (claim rows t).2.length ≤ 5 * ts.length := by
      simp only [List.length_cons] at hn
      omega
    have hdue2 : ∀ t1 ∈ ts, ∀ j ∈ (claim rows t).2, j.Created < t1 :=
      fun t1 ht1 j hj => hdue t1 (List.mem_cons_of_mem _ ht1) j (hsub.subset hj)
    obtain ⟨ih1, ih2, ih3, ih4⟩ := claimAll_drains ts (claim rows t).2 h2 hdue2 hn2
    refine ⟨?_, ih2, ?_, ?_⟩
    · simp only [claimAll, List.flatten_cons]
      exact (List.Perm.append_left _ ih1).trans hperm
    · simp only [claimAll, List.pairwise_cons]
      refine ⟨?_, ih3⟩
      intro b2 hb2 j hj k hk
      have hk2 : k ∈ (claim rows t).2 :=
        ih1.subset (List.mem_flatten.2 ⟨b2, hb2, hk⟩)
      have hkd : isDue t k = true := by
        simpa [isDue] using hdue t (List.mem_cons_self _ _) k (hsub.subset hk2)
      exact claim_fst_le_snd h hj hk2 hkd
    · intro b hb
      simp only [claimAll, List.mem_cons] at hb
      rcases hb with hb | hb
      · rw [hb, hlen1]
        omega
      · exact ih4 b hb

/-- C30, as stated, fails: for two due jobs, a Low one stored ahead of a
  High one, the single claim that ceil(2/5) asks for returns both, the Low
  job first, so the concatenation of the batches is not sorted by
  (priority, created). -/
theorem drain_sorted_counterexample :
    (∀ j ∈ exLowThenHigh, j.Created < 10) ∧ (exLowThenHigh.length + 4) / 5 = 1 ∧
    (claimAll [10] exLowThenHigh).1.flatten = exLowThenHigh ∧
    ¬ (claimAll [10] exLowThenHigh).1.flatten.Sorted jobLe := by
  decide

/-- C30, amended: for a table (ids unique) whose K jobs are all due at
  every claim time, ceil(K/5) or more successive claims with nothing
  inserted in between return all K jobs, each exactly once, in batches of at
  most five; every job of an earlier batch comes no later in the order
  (priority, created) than every job of a later batch; the queue is then
  empty and any further claim returns an empty batch. The order inside a
  batch is not promised. -/
theorem claims_drain_queue (rows : List Job) (times : List Int) (h : IdsUnique rows)
    (hdue : ∀ t ∈ times, ∀ j ∈ rows, j.Created < t)
    (hn : (rows.length + 4) / 5 ≤ times.length) :
    (claimAll times rows).1.flatten.Perm rows ∧
    (claimAll times rows).1.flatten.Nodup ∧
    (claimAll times rows).2 = [] ∧
    (claimAll times rows).1.Pairwise (fun b1 b2 => ∀ j ∈ b1, ∀ k ∈ b2, jobLe j k) ∧
    (∀ b ∈ (claimAll times rows).1, b.length ≤ 5) ∧
    (∀ t : Int, claim (claimAll times rows).2 t = ([], [])) := by
  obtain ⟨h1, h2, h3, h4⟩ := claimAll_drains times rows h hdue (by omega)
  refine ⟨h1, h1.nodup_iff.2 (nodup_of_idsUnique h), h2, h3, h4, ?_⟩
  intro t
  rw [h2]
  rfl

theorem claims_drain_queue_witness :
    (claimAll [1, 2, 3] exEleven).1.flatten.Perm exEleven ∧
    (claimAll [1, 2, 3] exEleven).2 = [] :=
  let h := claims_drain_queue exEleven [1, 2, 3] (by decide) (by decide) (by decide)
  ⟨h.1, h.2.2.1⟩

/-! ## The claim on tokens -/

theorem splitChars_ne_nil (sep : Char) : ∀ l : List Char, splitChars sep l ≠ []
  | [] => by simp [splitChars]
  | c :: cs => by
    unfold splitChars
    split_ifs
    · simp
    · cases splitChars sep cs <;> simp

theorem splitChars_no_sep (sep : Char) : ∀ l : List Char, sep ∉ l → splitChars sep l = [l]
  | [], _ => rfl
  | c :: cs, h => by
    have hc : c ≠ sep := fun he => h (he ▸ List.mem_cons_self _ _)
    have hcs : sep ∉ cs := fun hm => h (List.mem_cons_of_mem _ hm)
    unfold splitChars
    rw [if_neg hc, splitChars_no_sep sep cs hcs]

theorem splitChars_append (sep : Char) (b : List Char) :
    ∀ a : List Char, sep ∉ a → splitChars sep (a ++ sep :: b) = a :: splitChars sep b
  | [], _ => by
    rw [List.nil_append, splitChars, if_pos rfl]
  | c :: cs, h => by
    have hc : c ≠ sep := fun he => h (he ▸ List.mem_cons_self _ _)
    have hcs : sep ∉ cs := fun hm => h (List.mem_cons_of_mem _ hm)
    rw [List.cons_append, splitChars, if_neg hc, splitChars_append sep b cs hcs]

theorem split_two (x y : String) (hx : '.' ∉ x.data) (hy : '.' ∉ y.data) :
    Split (x ++ "." ++ y) = [x, y] := by
  have hd : (x ++ "." ++ y).data = x.data ++ '.' :: y.data := by
    simp [String.data_append]
  unfold Split
  rw [hd, splitChars_append '.' y.data x.data hx, splitChars_no_sep '.' y.data hy]
  rfl

theorem split_dotted (x y : String) (v1 rest : List Char) (hx : x.data = v1 ++ '.' :: rest)
    (hv1 : '.' ∉ v1) : ∃ p ps, Split (x ++ "." ++ y) = String.mk v1 :: p :: ps := by
  have hd : (x ++ "." ++ y).data = v1 ++ '.' :: (rest ++ '.' :: y.data) := by
    simp [String.data_append, hx]
  unfold Split
  rw [hd, splitChars_append '.' _ v1 hv1]
  cases hs : splitChars '.' (rest ++ '.' :: y.data) with
  | nil => exact absurd hs (splitChars_ne_nil _ _)
  | cons p ps => exact ⟨String.mk p, ps.map String.mk, rfl⟩

theorem append_dot_ne_empty (x y : String) : x ++ "." ++ y ≠ "" := by
  intro h
  have hd := congrArg String.data h
  simp [String.data_append] at hd

/-- For a value without '.', the token validates and gives the value back,
  given what the library functions do on this token. -/
theorem validateToken_roundtrip (lib : TokenLib) (value secret : String) (mins now now2 : Int)
    (hval : '.' ∉ value.data)
    (hfmt : '.' ∉ (lib.formatInt (expiryUnix now mins)).data)
    (henc : '.' ∉ (lib.encodeBase64
      (value ++ "." ++ lib.formatInt (expiryUnix now mins))).data)
    (hdec : lib.decodeBase64
      (lib.encodeBase64 (value ++ "." ++ lib.formatInt (expiryUnix now mins))) =
        some (value ++ "." ++ lib.formatInt (expiryUnix now mins)))
    (hsig : '.' ∉ (lib.hmacHex
      (lib.encodeBase64 (value ++ "." ++ lib.formatInt (expiryUnix now mins))) secret).data)
    (hparse : lib.parseInt (lib.formatInt (expiryUnix now mins)) = some (expiryUnix now mins))
    (hbefore : now2 / 1000000000 < expiryUnix now mins) :
    ValidateToken lib (CreateToken lib value secret mins now) secret now2 =
      .ok (value, true) := by
  unfold ValidateToken CreateToken
  simp only [StringToBase64, SignHMAC256, Base64ToString]
  rw [if_neg (append_dot_ne_empty _ _), split_two _ _ henc hsig]
  simp only [List.get?, ne_eq, not_true_eq_false, if_false, hdec]
  rw [split_two _ _ hval hfmt]
  simp only [List.get?, hparse]
  rw [if_neg (by omega)]

/-- C28 fails on the code for every value that contains '.': the token that
  `CreateToken` builds from it carries the library's signature, but
  `ValidateToken` splits the decoded message at every '.', so it takes what
  follows the first '.' of the value for the expiry time; it never returns
  (value, true), and when it returns true the value is cut at its first
  '.'. -/
theorem validateToken_dotted_value (lib : TokenLib) (value secret : String)
    (mins now now2 : Int) (v1 rest : List Char)
    (hval : value.data = v1 ++ '.' :: rest) (hv1 : '.' ∉ v1)
    (henc : '.' ∉ (lib.encodeBase64
      (value ++ "." ++ lib.formatInt (expiryUnix now mins))).data)
    (hdec : lib.decodeBase64
      (lib.encodeBase64 (value ++ "." ++ lib.formatInt (expiryUnix now mins))) =
        some (value ++ "." ++ lib.formatInt (expiryUnix now mins)))
    (hsig : '.' ∉ (lib.hmacHex
      (lib.encodeBase64 (value ++ "." ++ lib.formatInt (expiryUnix now mins))) secret).data) :
    ∃ res, ValidateToken lib (CreateToken lib value secret mins now) secret now2 = .ok res ∧
      res ≠ (value, true) ∧ (res.2 = true → res.1 = String.mk v1) := by
  have hne : String.mk v1 ≠ value := by
    intro h
    have hd := congrArg String.data h
    rw [hval] at hd
    have hl := congrArg List.length hd
    simp at hl
  obtain ⟨p, ps, hsplit⟩ := split_dotted value (lib.formatInt (expiryUnix now mins)) v1 rest
    hval hv1
  unfold ValidateToken CreateToken
  simp only [StringToBase64, SignHMAC256, Base64ToString]
  rw [if_neg (append_dot_ne_empty _ _), split_two _ _ henc hsig]
  simp only [List.get?, ne_eq, not_true_eq_false, if_false, hdec]
  rw [hsplit]
  simp only [List.get?]
  cases lib.parseInt p with
  | none => exact ⟨_, rfl, by simp, by simp⟩
  | some expiry =>
    simp only
    by_cases hexp : now2 / 1000000000 ≥ expiry
    · rw [if_pos hexp]
      exact ⟨_, rfl, by simp, by simp⟩
    · rw [if_neg hexp]
      refine ⟨_, rfl, ?_, fun _ => rfl⟩
      intro h
      exact hne (congrArg Prod.fst h)

theorem validateToken_dotted_value_witness :
    ∃ res, ValidateToken exLib (CreateToken exLib "a.b" "s" 360 0) "s" 5000000000 = .ok res ∧
      res ≠ ("a.b", true) ∧ (res.2 = true → res.1 = String.mk ['a']) :=
  validateToken_dotted_value exLib "a.b" "s" 360 0 5000000000 ['a'] ['b'] rfl (by decide)
    (by decide) (by decide) (by decide)

end Rodeo
